import Mathlib

/-!
Verification of the `pydi` dependency-injection container (`container.py`).

The Python module is embedded shallowly:

* Python values are modelled by `Val`; object instances live on an explicit
  heap (`List Obj`) and are referred to by `Val.ref` addresses, so that
  reference identity and Python truthiness (`__bool__`) are observable.
* A `DIConf` mirrors the Python `DIConf` record.  Python mutates the
  `cached` attribute of the (shared) `DIConf` object; we model that object
  identity by the `id` field and keep the mutable slot in the state
  (`St.slots id`).
* Constructors (`cls_`), methods (lifecycle calls) and awaitables are
  opaque callables supplied by the application; they are modelled by an
  environment `Env` of behaviours returning `Except Exc`.
* Exceptions are `Exc` (a type name and a message); Python's unbounded
  recursion is modelled with fuel, running out of fuel yields the
  `RecursionError` that CPython itself would raise.
* The state `St` records the heap, every recipe's cached slot, the set of
  fire-and-forget scheduled awaitables, and a ghost log of constructor
  invocations (conf id, constructor id, positional args, keyword args) used
  to state "the constructor ran exactly once" style properties.
-/

namespace Pydi

/-- An exception: its type name and its message. -/
structure Exc where
  ty : String
  msg : String
deriving DecidableEq, Repr

/-- A Python value: `None`, primitives, an instance reference into the heap,
an un-executed awaitable, or a scheduled task handle. -/
inductive Val where
  | none_ : Val
  | int : Int → Val
  | bool : Bool → Val
  | str : String → Val
  | ref : Nat → Val
  | awaitable : Nat → Val
  | task : Nat → Val
deriving DecidableEq, Repr

/-- A heap object: its attribute dictionary, plus whether `bool(obj)` is
`False` (Python objects may override `__bool__`). -/
structure Obj where
  falsy : Bool
  attrs : List (String × Val)
deriving DecidableEq, Repr

/-- Default object used for out-of-range heap reads. -/
def dObj : Obj := ⟨false, []⟩

/-- Python truthiness of a value, relative to a heap. -/
def truthy (h : List Obj) : Val → Bool
  | .none_ => false
  | .int n => n != 0
  | .bool b => b
  | .str s => s != ""
  | .ref a => !(h.getD a dObj).falsy
  | .awaitable _ => true
  | .task _ => true

/-- An `inspect.Parameter`: a name and an optional type annotation.
`none` models `inspect.Parameter.empty` (no annotation). -/
structure Param where
  name : String
  ann : Option String
deriving DecidableEq, Repr

/-- `param.annotation.__name__` as the Python source computes it: the class
`inspect._empty` (an absent annotation) has `__name__ = "_empty"`. -/
def annName (p : Param) : String := p.ann.getD "_empty"

/-- The Python `Call`: a lifecycle method name with its arguments. -/
structure LCall where
  method : String
  args : List Val
  kwargs : List (String × Val)
deriving DecidableEq, Repr

/-- The Python `DIConf`.  `id` models the identity of the Python object, so
that writes to the mutable attribute `cached` (kept in `St.slots id`) are
shared by every holder of the same conf. -/
structure DIConf where
  cls_ : Nat
  args : List Val
  kwargs : List (String × Val)
  calls : List LCall
  attrs : List (String × Val)
  cache : Bool
  id : Nat
deriving DecidableEq, Repr

/-- The Python `DIParam`: a conf paired with the parameter it satisfies. -/
structure DIParam where
  conf : DIConf
  param : Param
deriving DecidableEq, Repr

/-- What an opaque constructor does on success: return an existing value, or
allocate a fresh instance (with its `__bool__` flag and initial attributes). -/
inductive CtorRes where
  | val : Val → CtorRes
  | newObj : Bool → List (String × Val) → CtorRes

/-- An opaque constructor: its `__init__` signature (as `inspect.signature`
reports it, `self` included) and its behaviour on the given arguments. -/
structure Ctor where
  sig : List Param
  beh : List Val → List (String × Val) → Except Exc CtorRes

/-- A target callable handed to `inject`/`ainject`: its signature and its
behaviour. -/
structure Fn where
  sig : List Param
  beh : List Val → List (String × Val) → Except Exc Val

/-- The environment of opaque callables: constructor table, method-call
behaviour (`getattr(obj, m)(*args, **kwargs)`), awaitable execution, and
whether an asyncio event loop is currently running. -/
structure Env where
  ctors : Nat → Ctor
  methodBeh : List Obj → Val → String → List Val → List (String × Val) → Except Exc Val
  awaitBeh : Nat → Except Exc Val
  loopRunning : Bool

/-- A ghost record of one constructor invocation. -/
structure LogEntry where
  confId : Nat
  ctorId : Nat
  args : List Val
  kwargs : List (String × Val)
deriving DecidableEq, Repr

/-- The mutable program state: the heap of instances, each conf's `cached`
slot (indexed by conf identity, initially `None`), the ghost constructor
log, and the ids of fire-and-forget scheduled awaitables. -/
structure St where
  heap : List Obj
  slots : Nat → Val
  log : List LogEntry
  sched : List Nat

/-- The initial state: empty heap, every `cached` slot `None`. -/
def initSt : St := ⟨[], fun _ => .none_, [], []⟩

/-- The registry: `Dict[str, DIConf]` as an association list with distinct
keys, first match wins (Python dict lookup). -/
abbrev Config := List (String × DIConf)

/-- Python dict lookup on a string-keyed association list. -/
def lookupStr (l : List (String × Val)) (n : String) : Option Val :=
  match l with
  | [] => none
  | (k, v) :: t => if k = n then some v else lookupStr t n

/-- Python `n in d` on a string-keyed association list. -/
def containsName (l : List (String × Val)) (n : String) : Bool :=
  match l with
  | [] => false
  | (k, _) :: t => k == n || containsName t n

/-- Python `d.pop(n)`: remove the (first) entry with key `n`. -/
def popKey : List (String × Val) → String → List (String × Val)
  | [], _ => []
  | (k, v) :: t, n => if k = n then t else (k, v) :: popKey t n

/-- `params_.pop(name)` on the ordered parameter dict. -/
def popParam : List Param → String → List Param
  | [], _ => []
  | p :: t, n => if p.name = n then t else p :: popParam t n

/-- Python dict union `a | b`: keys of `a` in order with `b`'s value on
collision, followed by the keys of `b` absent from `a`. -/
def pyUnion (a b : List (String × Val)) : List (String × Val) :=
  a.map (fun kv => (kv.1, (lookupStr b kv.1).getD kv.2)) ++
    b.filter (fun kv => !containsName a kv.1)

/-- `self.config.get(name)`. -/
def lookupCfg (cfg : Config) (n : String) : Option DIConf :=
  match cfg with
  | [] => none
  | (k, c) :: t => if k = n then some c else lookupCfg t n

/-- The loop of `_get_params_to_resolve`: walk the declared parameters in
order; while positional arguments remain, consume one per parameter; once
they are exhausted, a parameter whose name is in the remaining keyword
arguments is removed together with that keyword.  `params_` is the shrinking
copy of the parameter dict. -/
def gprLoop : List Param → List Val → List (String × Val) → List Param → List Param
  | [], _, _, params_ => params_
  | p :: rest, _ :: as_, kwargs_, params_ =>
      gprLoop rest as_ kwargs_ (popParam params_ p.name)
  | p :: rest, [], kwargs_, params_ =>
      if kwargs_.isEmpty then gprLoop rest [] kwargs_ params_
      else if containsName kwargs_ p.name then
        gprLoop rest [] (popKey kwargs_ p.name) (popParam params_ p.name)
      else gprLoop rest [] kwargs_ params_

/-- `Container._get_params_to_resolve`: the declared parameters of `fun`
not already satisfied by the supplied positional or keyword arguments.
(The Python code operates on deep copies of the supplied containers; the
value-level function is justified by the heap-level model below.) -/
def getParamsToResolve (sig : List Param) (args : List Val)
    (kwargs : List (String × Val)) : List Param :=
  gprLoop sig args kwargs sig

/-- `Container._get_configurable`: keep the parameters whose annotation name
has a conf in the registry, pairing each with its conf. -/
def getConfigurable (cfg : Config) (ps : List Param) : List DIParam :=
  ps.filterMap (fun p => (lookupCfg cfg (annName p)).map (fun c => ⟨c, p⟩))

/-- `Container._get_cached`: the cached instances, keyed by parameter name,
of the confs with `cache` set and a truthy `cached` slot. -/
def getCached (slots : Nat → Val) (heap : List Obj) (ps : List DIParam) :
    List (String × Val) :=
  ps.filterMap (fun p =>
    let c := slots p.conf.id
    if p.conf.cache && truthy heap c then some (p.param.name, c) else none)

/-- Materialize a constructor result: allocate fresh instances at the end of
the heap. -/
def allocRes (r : CtorRes) (s : St) : Val × St :=
  match r with
  | .val v => (v, s)
  | .newObj fl at_ => (.ref s.heap.length, { s with heap := s.heap ++ [⟨fl, at_⟩] })

/-- Python `setattr` semantics on an attribute dict: overwrite in place or
append. -/
def setKV : List (String × Val) → String → Val → List (String × Val)
  | [], n, v => [(n, v)]
  | (k, w) :: t, n, v => if k = n then (k, v) :: t else (k, w) :: setKV t n v

/-- `setattr(obj, n, v)` on a heap object (its truthiness is unchanged). -/
def setAttrObj (o : Obj) (n : String) (v : Val) : Obj := ⟨o.falsy, setKV o.attrs n v⟩

/-- The `for attr, value in param.conf.attrs.items(): setattr(...)` loop;
`setattr` on a non-instance raises `AttributeError`. -/
def applyAttrs (dep : Val) : List (String × Val) → St → Except Exc Unit × St
  | [], s => (.ok (), s)
  | (n, v) :: rest, s =>
    match dep with
    | .ref a =>
        applyAttrs dep rest
          { s with heap := s.heap.set a (setAttrObj (s.heap.getD a dObj) n v) }
    | _ => (.error ⟨"AttributeError", "cannot set attribute"⟩, s)

/-- The `RecursionError` CPython raises when the recursion limit is hit
(unbounded recursion is modelled with fuel). -/
def recursionExc : Exc := ⟨"RecursionError", "maximum recursion depth exceeded"⟩

/-- The `TypeError` raised by `await` on a non-awaitable value. -/
def awaitTypeError : Exc := ⟨"TypeError", "object cannot be used in await expression"⟩

/-- `await v`: run the awaitable, or raise `TypeError` on anything else. -/
def pyAwait (env : Env) (v : Val) : Except Exc Val :=
  match v with
  | .awaitable i => env.awaitBeh i
  | _ => .error awaitTypeError

/-- The lifecycle-call loop of `_build_dependency` (blocking variant): run
each call in order; an awaitable result is driven best-effort — scheduled
fire-and-forget when a loop is running, otherwise executed via
`asyncio.run` (whose exception, if any, propagates). -/
def runCallsS (env : Env) (dep : Val) : List LCall → St → Except Exc Unit × St
  | [], s => (.ok (), s)
  | c :: rest, s =>
    match env.methodBeh s.heap dep c.method c.args c.kwargs with
    | .error e => (.error e, s)
    | .ok r =>
      match r with
      | .awaitable i =>
          if env.loopRunning then
            runCallsS env dep rest { s with sched := s.sched ++ [i] }
          else
            match env.awaitBeh i with
            | .error e => (.error e, s)
            | .ok _ => runCallsS env dep rest s
      | _ => runCallsS env dep rest s

/-- The lifecycle-call loop of `_abuild_dependency` (suspend-capable
variant): an awaitable result is awaited in place before the next call. -/
def runCallsA (env : Env) (dep : Val) : List LCall → St → Except Exc Unit × St
  | [], s => (.ok (), s)
  | c :: rest, s =>
    match env.methodBeh s.heap dep c.method c.args c.kwargs with
    | .error e => (.error e, s)
    | .ok r =>
      match r with
      | .awaitable i =>
          match env.awaitBeh i with
          | .error e => (.error e, s)
          | .ok _ => runCallsA env dep rest s
      | _ => runCallsA env dep rest s

/-- The sequential dict comprehension
`{p.param.name: build(p) for p in ...}`: build each dependency in order with
the given builder, accumulating name-to-instance pairs; an exception aborts
the comprehension. -/
def buildListF (bf : DIParam → St → Except Exc Val × St) :
    List DIParam → List (String × Val) → St → Except Exc (List (String × Val)) × St
  | [], acc, s => (.ok acc, s)
  | q :: rest, acc, s =>
    match bf q s with
    | (.ok v, s1) => buildListF bf rest (acc ++ [(q.param.name, v)]) s1
    | (.error e, s1) => (.error e, s1)

/-- The tail of `_build_dependency` / `_abuild_dependency` after the
recursive `resolved` comprehension: invoke the constructor with
`*conf.args, **resolved | cached | conf.kwargs`, apply `conf.attrs`, run the
lifecycle calls through `runner`, and finally set the `cached` slot when
`conf.cache` holds and the slot is not yet truthy. -/
def finishBuild (env : Env)
    (runner : Val → List LCall → St → Except Exc Unit × St)
    (p : DIParam) (resolved cached : List (String × Val)) (s1 : St) :
    Except Exc Val × St :=
  let ckw := pyUnion (pyUnion resolved cached) p.conf.kwargs
  let s2 := { s1 with log := s1.log ++ [⟨p.conf.id, p.conf.cls_, p.conf.args, ckw⟩] }
  match (env.ctors p.conf.cls_).beh p.conf.args ckw with
  | .error e => (.error e, s2)
  | .ok cres =>
    let ds3 := allocRes cres s2
    match applyAttrs ds3.1 p.conf.attrs ds3.2 with
    | (.error e, s4) => (.error e, s4)
    | (.ok _, s4) =>
      match runner ds3.1 p.conf.calls s4 with
      | (.error e, s5) => (.error e, s5)
      | (.ok _, s5) =>
        let s6 := if p.conf.cache && !truthy s5.heap (s5.slots p.conf.id)
                  then { s5 with
                          slots := fun j => if j == p.conf.id then ds3.1 else s5.slots j }
                  else s5
        (.ok ds3.1, s6)

/-- The `params_to_resolve` line shared by the build and inject paths:
the configurable parameters of a signature after removing the supplied
arguments. -/
def phaseParams (cfg : Config) (sig : List Param) (args : List Val)
    (kwargs : List (String × Val)) : List DIParam :=
  getConfigurable cfg (getParamsToResolve sig args kwargs)

/-- The `cached` line: cached instances for those parameters. -/
def phaseCached (cfg : Config) (sig : List Param) (args : List Val)
    (kwargs : List (String × Val)) (s : St) : List (String × Val) :=
  getCached s.slots s.heap (phaseParams cfg sig args kwargs)

/-- The parameters the `resolved` comprehension actually builds:
configurable and not already cached. -/
def phaseTodo (cfg : Config) (sig : List Param) (args : List Val)
    (kwargs : List (String × Val)) (s : St) : List DIParam :=
  (phaseParams cfg sig args kwargs).filter
    (fun q => !containsName (phaseCached cfg sig args kwargs s) q.param.name)

/-- `_build_dependency` / `_abuild_dependency`, which per the module share
one structure and differ only in the lifecycle-call loop (their `runner`):
inspect the constructor signature, recursively build the configurable
not-yet-cached parameters, then `finishBuild`. -/
def buildD (cfg : Config) (env : Env)
    (runner : Val → List LCall → St → Except Exc Unit × St) :
    Nat → DIParam → St → Except Exc Val × St
  | 0, _, s => (.error recursionExc, s)
  | Nat.succ f, p, s =>
    match buildListF (buildD cfg env runner f)
        (phaseTodo cfg (env.ctors p.conf.cls_).sig [] [] s) [] s with
    | (.error e, s1) => (.error e, s1)
    | (.ok resolved, s1) =>
        finishBuild env runner p resolved
          (phaseCached cfg (env.ctors p.conf.cls_).sig [] [] s) s1

/-- `Container._build_dependency` (blocking). -/
def build (cfg : Config) (env : Env) : Nat → DIParam → St → Except Exc Val × St :=
  buildD cfg env (runCallsS env)

/-- `Container._abuild_dependency` (suspend-capable). -/
def abuild (cfg : Config) (env : Env) : Nat → DIParam → St → Except Exc Val × St :=
  buildD cfg env (runCallsA env)

/-- The shared resolution prefix of `inject`/`ainject`: compute the
parameters to resolve against the supplied arguments, the cached instances,
build the rest with the given runner, and merge
`kwargs | resolved | cached`. -/
def injectResolveD (cfg : Config) (env : Env)
    (runner : Val → List LCall → St → Except Exc Unit × St)
    (sig : List Param) (args : List Val) (kwargs : List (String × Val))
    (f : Nat) (s : St) : Except Exc (List (String × Val)) × St :=
  match buildListF (buildD cfg env runner f)
      (phaseTodo cfg sig args kwargs s) [] s with
  | (.error e, s1) => (.error e, s1)
  | (.ok resolved, s1) =>
      (.ok (pyUnion (pyUnion kwargs resolved) (phaseCached cfg sig args kwargs s)), s1)

/-- `Container.inject`: resolve, then `return fun(*args, **kwargs |
resolved | cached)` — the result of `fun` is returned as is. -/
def inject (cfg : Config) (env : Env) (fn : Fn) (args : List Val)
    (kwargs : List (String × Val)) (f : Nat) (s : St) : Except Exc Val × St :=
  match injectResolveD cfg env (runCallsS env) fn.sig args kwargs f s with
  | (.error e, s1) => (.error e, s1)
  | (.ok m, s1) => (fn.beh args m, s1)

/-- `Container.ainject`: resolve with the suspend-capable builder, then
`return await fun(*args, **kwargs | resolved | cached)`. -/
def ainject (cfg : Config) (env : Env) (fn : Fn) (args : List Val)
    (kwargs : List (String × Val)) (f : Nat) (s : St) : Except Exc Val × St :=
  match injectResolveD cfg env (runCallsA env) fn.sig args kwargs f s with
  | (.error e, s1) => (.error e, s1)
  | (.ok m, s1) =>
    match fn.beh args m with
    | .error e => (.error e, s1)
    | .ok v => (pyAwait env v, s1)

/-- A value's instance reference (if any) points into the heap. -/
def refBound (h : List Obj) : Val → Bool
  | .ref a => decide (a < h.length)
  | _ => true

/-- Heap evolution as the engine performs it: the heap only grows, and the
truthiness flag of every existing object is unchanged. -/
def heapLe (h h2 : List Obj) : Prop :=
  h.length ≤ h2.length ∧
    ∀ a, a < h.length → (h2.getD a dObj).falsy = (h.getD a dObj).falsy

/-- A lifecycle-call runner that leaves the cached slots, the heap and the
constructor log alone (both the blocking and the suspend-capable loop do). -/
def RunnerOk (runner : Val → List LCall → St → Except Exc Unit × St) : Prop :=
  ∀ d cs s, ((runner d cs s).2.slots = s.slots) ∧
    ((runner d cs s).2.heap = s.heap) ∧ ((runner d cs s).2.log = s.log)

/-- Registry well-formedness: it is a Python dict (distinct keys) of
distinct `DIConf` objects (distinct identities). -/
def WFids (cfg : Config) : Prop :=
  (cfg.map (fun nc => nc.2.id)).Nodup ∧ (cfg.map (fun nc => nc.1)).Nodup

/-- The registry's dependency graph is acyclic, witnessed by a rank
function that strictly decreases from a recipe to the recipes resolved for
its constructor's parameters. -/
def RankOk (cfg : Config) (env : Env) (rank : String → Nat) : Prop :=
  ∀ nc ∈ cfg, ∀ p ∈ getParamsToResolve (env.ctors nc.2.cls_).sig [] [],
    if (lookupCfg cfg (annName p)).isSome then rank (annName p) < rank nc.1 else True

/-- A probe callable with one annotated parameter that returns the value it
received for it (the spec's `drive(e: Engine)` shape). -/
def probeFn (T pname : String) : Fn :=
  ⟨[⟨pname, some T⟩], fun _ kw => .ok ((lookupStr kw pname).getD .none_)⟩

/-! ### Heap-level model of `_get_params_to_resolve`

`_get_params_to_resolve` receives the caller's argument containers, takes
deep copies of both, and pops from the copies.  To state the frame property
(the caller's containers are not mutated) the containers are given
addresses in an explicit store and the loop's pops are in-place writes. -/

/-- A store of argument containers: positional tuples and keyword dicts,
addressed by index. -/
structure ArgStore where
  argCells : List (List Val)
  kwCells : List (List (String × Val))

/-- The discovery loop operating in place on the two cells `aR`, `kR` (the
fresh copies): `args_.pop(0)` and `kwargs_.pop(param)` mutate the cells. -/
def gprHLoop : List Param → Nat → Nat → ArgStore → List Param → List Param × ArgStore
  | [], _, _, st, params_ => (params_, st)
  | p :: rest, aR, kR, st, params_ =>
    match st.argCells.getD aR [] with
    | _ :: as_ =>
        gprHLoop rest aR kR { st with argCells := st.argCells.set aR as_ }
          (popParam params_ p.name)
    | [] =>
        let kw := st.kwCells.getD kR []
        if kw.isEmpty then gprHLoop rest aR kR st params_
        else if containsName kw p.name then
          gprHLoop rest aR kR { st with kwCells := st.kwCells.set kR (popKey kw p.name) }
            (popParam params_ p.name)
        else gprHLoop rest aR kR st params_

/-- `_get_params_to_resolve` at the store level: read the caller's
containers (absent ones are empty), allocate fresh deep copies, and run the
loop on the copies. -/
def getParamsToResolveH (sig : List Param) (aRef kRef : Option Nat) (st : ArgStore) :
    List Param × ArgStore :=
  let argsVal := match aRef with | some r => st.argCells.getD r [] | none => []
  let kwVal := match kRef with | some r => st.kwCells.getD r [] | none => []
  let aR := st.argCells.length
  let st1 : ArgStore := ⟨st.argCells ++ [argsVal], st.kwCells⟩
  let kR := st1.kwCells.length
  let st2 : ArgStore := ⟨st1.argCells, st1.kwCells ++ [kwVal]⟩
  gprHLoop sig aR kR st2 sig

/-! ### Concrete scenarios used by counterexamples and witnesses -/

/-- A constructor allocating a fresh, truthy, attribute-free instance. -/
def ctorPlain : Ctor := ⟨[⟨"self", none⟩], fun _ _ => .ok (.newObj false [])⟩

/-- A constructor allocating a fresh instance whose `__bool__` is `False`. -/
def ctorFalsy : Ctor := ⟨[⟨"self", none⟩], fun _ _ => .ok (.newObj true [])⟩

/-- An environment with the given constructor everywhere, no methods, one
awaitable (`3`, worth `42`), and no running event loop. -/
def mkEnv (c : Ctor) : Env :=
  ⟨fun _ => c,
   fun _ _ _ _ _ => .error ⟨"AttributeError", "no method"⟩,
   fun i => if i == 3 then .ok (.int 42) else .error ⟨"RuntimeError", "unknown awaitable"⟩,
   false⟩

/-- `mkEnv ctorPlain`. -/
def envPlain : Env := mkEnv ctorPlain

/-- `mkEnv ctorFalsy`. -/
def envFalsy : Env := mkEnv ctorFalsy

/-- `envPlain` with a running event loop. -/
def envPlainLoop : Env := { envPlain with loopRunning := true }

/-- A cache-enabled recipe for constructor `0`, identity `0`, no extras. -/
def engineConf : DIConf := ⟨0, [], [], [], [], true, 0⟩

/-- The spec's concrete registry

    Registry = Dict with key Engine mapped to Recipe(constructor=Engine, cacheEnabled=true). -/
def cfgEngine : Config := [("Engine", engineConf)]

/-- An async target callable: `fun` returns the un-executed awaitable `3`. -/
def fnAsync : Fn := ⟨[], fun _ _ => .ok (.awaitable 3)⟩

/-- A sync target callable returning the plain value `7`. -/
def fnSync : Fn := ⟨[], fun _ _ => .ok (.int 7)⟩

/-- The parameter `e: Engine`. -/
def engineParam : Param := ⟨"e", some "Engine"⟩

/-- A cache-disabled recipe (identity `7`) for constructor `0`. -/
def wheelConf : DIConf := ⟨0, [], [], [], [], false, 7⟩

/-- The spec's `Wheel` registry: one cache-disabled recipe. -/
def cfgWheel : Config := [("Wheel", wheelConf)]

/-- The parameter `w: Wheel`. -/
def wheelParam : Param := ⟨"w", some "Wheel"⟩

/-- A state whose slot `0` already caches the truthy instance at address
`0`. -/
def stTruthy : St := ⟨[⟨false, []⟩], fun j => if j == 0 then .ref 0 else .none_, [], []⟩

/-- A two-parameter probe returning what it received for `b`. -/
def fnTwoEngines : Fn :=
  ⟨[⟨"a", some "Engine"⟩, ⟨"b", some "Engine"⟩],
   fun _ kw => .ok ((lookupStr kw "b").getD .none_)⟩

/-- A constructor that always raises `ValueError: boom`. -/
def ctorBoom : Ctor := ⟨[], fun _ _ => .error ⟨"ValueError", "boom"⟩⟩

/-- Recipe `A`: plain constructor `0`, no caching, identity `0`. -/
def confA9 : DIConf := ⟨0, [], [], [], [], false, 0⟩

/-- Recipe `B`: the raising constructor `1`, identity `1`. -/
def confB9 : DIConf := ⟨1, [], [], [], [], false, 1⟩

/-- Registry with a recipe that builds (`A`) and one whose constructor
raises (`B`). -/
def cfg9 : Config := [("A", confA9), ("B", confB9)]

/-- Environment for `cfg9`. -/
def env9 : Env :=
  ⟨fun i => if i == 1 then ctorBoom else ctorPlain,
   fun _ _ _ _ _ => .error ⟨"AttributeError", "no method"⟩,
   fun _ => .error ⟨"RuntimeError", "unknown awaitable"⟩, false⟩

/-- A target callable needing `a: A` and `b: B`. -/
def fn9 : Fn := ⟨[⟨"a", some "A"⟩, ⟨"b", some "B"⟩], fun _ _ => .ok .none_⟩

/-- Constructor `2`: needs a `b: B` argument, allocates a truthy instance. -/
def ctorA10 : Ctor :=
  ⟨[⟨"self", none⟩, ⟨"b", some "B"⟩], fun _ _ => .ok (.newObj false [])⟩

/-- Recipe `A` with a lifecycle call `boom` and caching on, identity `0`. -/
def confA10 : DIConf := ⟨2, [], [], [⟨"boom", [], []⟩], [], true, 0⟩

/-- Recipe `B` with caching on, identity `1`. -/
def confB10 : DIConf := ⟨0, [], [], [], [], true, 1⟩

/-- Registry where `A` depends on `B` and `A`'s lifecycle call fails. -/
def cfg10 : Config := [("A", confA10), ("B", confB10)]

/-- Environment for `cfg10`: every method call raises `RuntimeError`. -/
def env10 : Env :=
  ⟨fun i => if i == 2 then ctorA10 else ctorPlain,
   fun _ _ _ _ _ => .error ⟨"RuntimeError", "start failed"⟩,
   fun _ => .error ⟨"RuntimeError", "unknown awaitable"⟩, false⟩

/-- Rank function for `cfg10` and `cfg9`: `A` above `B`. -/
def rankAB : String → Nat := fun n => if n == "A" then 1 else 0

/-! ### Dictionary lemmas -/

theorem containsName_eq_isSome (l : List (String × Val)) (n : String) :
    containsName l n = (lookupStr l n).isSome := by
  induction l with
  | nil => rfl
  | cons kv t ih =>
    rcases kv with ⟨k, v⟩
    by_cases h : k = n
    · simp [containsName, lookupStr, h]
    · simp [containsName, lookupStr, h, ih]

theorem lookupStr_append (x y : List (String × Val)) (n : String) :
    lookupStr (x ++ y) n = (lookupStr x n).orElse (fun _ => lookupStr y n) := by
  induction x with
  | nil => simp [lookupStr]
  | cons kv t ih =>
    rcases kv with ⟨k, v⟩
    by_cases h : k = n
    · simp [lookupStr, h]
    · simp [lookupStr, h, ih]

theorem lookupStr_mapUnion (a b : List (String × Val)) (n : String) :
    lookupStr (a.map (fun kv => (kv.1, (lookupStr b kv.1).getD kv.2))) n =
      (lookupStr a n).map (fun v => (lookupStr b n).getD v) := by
  induction a with
  | nil => rfl
  | cons kv t ih =>
    rcases kv with ⟨k, v⟩
    by_cases h : k = n
    · subst h; simp [lookupStr]
    · simp [lookupStr, h, ih]

theorem lookupStr_filterUnion (a b : List (String × Val)) (n : String) :
    lookupStr (b.filter (fun kv => !containsName a kv.1)) n =
      if containsName a n then none else lookupStr b n := by
  induction b with
  | nil => simp [lookupStr]
  | cons kv t ih =>
    rcases kv with ⟨k, v⟩
    by_cases hc : containsName a k
    · rw [show List.filter (fun kv => !containsName a kv.1) ((k, v) :: t) =
          List.filter (fun kv => !containsName a kv.1) t from by
        simp [List.filter_cons, hc]]
      rw [ih]
      by_cases h : k = n
      · subst h; simp [hc]
      · by_cases hcn : containsName a n <;> simp [hcn, lookupStr, h]
    · rw [show List.filter (fun kv => !containsName a kv.1) ((k, v) :: t) =
          (k, v) :: List.filter (fun kv => !containsName a kv.1) t from by
        simp [List.filter_cons, hc]]
      by_cases h : k = n
      · subst h; simp [lookupStr, hc]
      · simp [lookupStr, h, ih]

/-- Python dict union looks up the right operand first: later overrides
earlier. -/
theorem lookupStr_pyUnion (a b : List (String × Val)) (n : String) :
    lookupStr (pyUnion a b) n = (lookupStr b n).orElse (fun _ => lookupStr a n) := by
  rw [pyUnion, lookupStr_append, lookupStr_mapUnion, lookupStr_filterUnion]
  by_cases hc : containsName a n
  · have : (lookupStr a n).isSome := by rw [← containsName_eq_isSome]; exact hc
    rcases ha : lookupStr a n with _ | v
    · rw [ha] at this; simp at this
    · rcases hb : lookupStr b n with _ | w <;> simp [hc]
  · have : lookupStr a n = none := by
      have h2 := containsName_eq_isSome a n
      simp only [Bool.not_eq_true] at hc
      rw [hc] at h2
      rcases ha : lookupStr a n with _ | v
      · rfl
      · rw [ha] at h2; simp at h2
    simp [this, hc]

theorem pyUnion_nil_left (b : List (String × Val)) : pyUnion [] b = b := by
  simp [pyUnion, containsName]

theorem pyUnion_nil_right (a : List (String × Val)) : pyUnion a [] = a := by
  simp [pyUnion, lookupStr]

theorem lookupStr_some_mem (l : List (String × Val)) (n : String) (v : Val) :
    lookupStr l n = some v → (n, v) ∈ l := by
  induction l with
  | nil => intro h; cases h
  | cons kv t ih =>
    rcases kv with ⟨k, w⟩
    by_cases h : k = n
    · subst h; simp [lookupStr]; intro h; exact Or.inl h.symm
    · simp [lookupStr, h]
      intro hl
      exact Or.inr (ih hl)

theorem mem_getConfigurable (cfg : Config) (ps : List Param) (q : DIParam) :
    q ∈ getConfigurable cfg ps →
      q.param ∈ ps ∧ lookupCfg cfg (annName q.param) = some q.conf := by
  intro h
  rcases List.mem_filterMap.mp h with ⟨p, hp, hq⟩
  rcases ho : lookupCfg cfg (annName p) with _ | c
  · rw [ho] at hq; cases hq
  · rw [ho] at hq
    simp only [Option.map_some'] at hq
    cases hq
    exact ⟨hp, ho⟩

theorem lookupCfg_mem (cfg : Config) (n : String) (c : DIConf) :
    lookupCfg cfg n = some c → (n, c) ∈ cfg := by
  induction cfg with
  | nil => intro h; cases h
  | cons kv t ih =>
    rcases kv with ⟨k, w⟩
    by_cases h : k = n
    · subst h; simp [lookupCfg]; intro h; exact Or.inl h.symm
    · simp [lookupCfg, h]
      intro hl
      exact Or.inr (ih hl)

/-- With distinct conf identities, the identity determines the registry
entry. -/
theorem WFids_unique (cfg : Config) (hwf : WFids cfg) :
    ∀ n1 n2 c1 c2, lookupCfg cfg n1 = some c1 → lookupCfg cfg n2 = some c2 →
      c1.id = c2.id → n1 = n2 ∧ c1 = c2 := by
  induction cfg with
  | nil => intro n1 n2 c1 c2 h1 _ _; cases h1
  | cons kv t ih =>
    rcases kv with ⟨k, c⟩
    rcases hwf with ⟨hids, hkeys⟩
    simp only [List.map_cons, List.nodup_cons] at hids hkeys
    intro n1 n2 c1 c2 h1 h2 hid
    simp only [lookupCfg] at h1 h2
    by_cases e1 : k = n1 <;> by_cases e2 : k = n2
    · rw [if_pos e1] at h1
      rw [if_pos e2] at h2
      cases h1; cases h2
      exact ⟨e1.symm.trans e2, rfl⟩
    · rw [if_pos e1] at h1
      rw [if_neg e2] at h2
      cases h1
      have hm := lookupCfg_mem t n2 c2 h2
      have : c2.id ∈ t.map (fun nc => nc.2.id) :=
        List.mem_map_of_mem (fun nc => nc.2.id) hm
      rw [← hid] at this
      exact absurd this hids.1
    · rw [if_pos e2] at h2
      rw [if_neg e1] at h1
      cases h2
      have hm := lookupCfg_mem t n1 c1 h1
      have : c1.id ∈ t.map (fun nc => nc.2.id) :=
        List.mem_map_of_mem (fun nc => nc.2.id) hm
      rw [hid] at this
      exact absurd this hids.1
    · rw [if_neg e1] at h1
      rw [if_neg e2] at h2
      exact ih ⟨hids.2, hkeys.2⟩ n1 n2 c1 c2 h1 h2 hid

/-! ### Heap evolution -/

theorem heapLe_refl (h : List Obj) : heapLe h h := ⟨Nat.le_refl _, fun _ _ => rfl⟩

theorem heapLe_trans {h1 h2 h3 : List Obj} (ha : heapLe h1 h2) (hb : heapLe h2 h3) :
    heapLe h1 h3 :=
  ⟨Nat.le_trans ha.1 hb.1,
   fun a hlt => (hb.2 a (Nat.lt_of_lt_of_le hlt ha.1)).trans (ha.2 a hlt)⟩

theorem heapLe_append (h : List Obj) (l : List Obj) : heapLe h (h ++ l) := by
  refine ⟨by simp, fun a hlt => ?_⟩
  rw [List.getD_append _ _ _ _ hlt]

theorem heapLe_setAttr (h : List Obj) (a : Nat) (n : String) (v : Val) :
    heapLe h (h.set a (setAttrObj (h.getD a dObj) n v)) := by
  refine ⟨by simp, fun b hlt => ?_⟩
  by_cases hab : a = b
  · subst hab
    by_cases hb : a < h.length
    · have hgd : h.getD a dObj = h[a] := by
        simp [List.getD, List.getElem?_eq_getElem hb]
      simp [List.getD, List.getElem?_set_self', List.getElem?_eq_getElem hb, hgd,
        setAttrObj]
    · omega
  · simp [List.getD, List.getElem?_set_ne hab]

theorem truthy_heapLe {h h2 : List Obj} (hle : heapLe h h2) (v : Val)
    (hb : refBound h v = true) : truthy h2 v = truthy h v := by
  cases v with
  | ref a =>
    simp only [refBound, decide_eq_true_eq] at hb
    have := hle.2 a hb
    simp only [List.getD, List.get?_eq_getElem?] at this
    simp [truthy, this]
  | none_ => rfl
  | int n => rfl
  | bool b => rfl
  | str s => rfl
  | awaitable i => rfl
  | task i => rfl

theorem refBound_heapLe {h h2 : List Obj} (hle : heapLe h h2) (v : Val)
    (hb : refBound h v = true) : refBound h2 v = true := by
  cases v with
  | ref a =>
    simp only [refBound, decide_eq_true_eq] at hb ⊢
    exact Nat.lt_of_lt_of_le hb hle.1
  | none_ => rfl
  | int n => rfl
  | bool b => rfl
  | str s => rfl
  | awaitable i => rfl
  | task i => rfl

/-! ### Preservation facts for the engine's steps -/

theorem runCallsS_ok (env : Env) : RunnerOk (runCallsS env) := by
  intro d cs
  induction cs with
  | nil => intro s; exact ⟨rfl, rfl, rfl⟩
  | cons c rest ih =>
    intro s
    simp only [runCallsS]
    rcases hm : env.methodBeh s.heap d c.method c.args c.kwargs with e | r
    · exact ⟨rfl, rfl, rfl⟩
    · cases r with
      | awaitable i =>
        by_cases hl : env.loopRunning
        · simp only [hl, if_true]
          exact ih { s with sched := s.sched ++ [i] }
        · simp only [hl, if_false]
          rcases ha : env.awaitBeh i with e | w
          · exact ⟨rfl, rfl, rfl⟩
          · exact ih s
      | none_ => exact ih s
      | int n => exact ih s
      | bool b => exact ih s
      | str t => exact ih s
      | ref a => exact ih s
      | task t => exact ih s

theorem runCallsA_ok (env : Env) : RunnerOk (runCallsA env) := by
  intro d cs
  induction cs with
  | nil => intro s; exact ⟨rfl, rfl, rfl⟩
  | cons c rest ih =>
    intro s
    rcases hm : env.methodBeh s.heap d c.method c.args c.kwargs with e | r
    · simp [runCallsA, hm]
    · cases r with
      | awaitable i =>
        rcases ha : env.awaitBeh i with e | w
        · simp [runCallsA, hm, ha]
        · simp only [runCallsA, hm, ha]
          exact ih s
      | none_ => simp only [runCallsA, hm]; exact ih s
      | int n => simp only [runCallsA, hm]; exact ih s
      | bool b => simp only [runCallsA, hm]; exact ih s
      | str t => simp only [runCallsA, hm]; exact ih s
      | ref a => simp only [runCallsA, hm]; exact ih s
      | task t => simp only [runCallsA, hm]; exact ih s

theorem applyAttrs_state (dep : Val) :
    ∀ (at_ : List (String × Val)) (s : St),
      ((applyAttrs dep at_ s).2.slots = s.slots) ∧
      ((applyAttrs dep at_ s).2.log = s.log) ∧
      heapLe s.heap (applyAttrs dep at_ s).2.heap := by
  intro at_
  induction at_ with
  | nil => intro s; exact ⟨rfl, rfl, heapLe_refl _⟩
  | cons nv rest ih =>
    intro s
    rcases nv with ⟨n, v⟩
    cases dep with
    | ref a =>
      rcases ih { s with heap := s.heap.set a (setAttrObj (s.heap.getD a dObj) n v) }
        with ⟨h1, h2, h3⟩
      exact ⟨h1, h2, heapLe_trans (heapLe_setAttr s.heap a n v) h3⟩
    | none_ => exact ⟨rfl, rfl, heapLe_refl _⟩
    | int n2 => exact ⟨rfl, rfl, heapLe_refl _⟩
    | bool b => exact ⟨rfl, rfl, heapLe_refl _⟩
    | str t => exact ⟨rfl, rfl, heapLe_refl _⟩
    | awaitable i => exact ⟨rfl, rfl, heapLe_refl _⟩
    | task t => exact ⟨rfl, rfl, heapLe_refl _⟩

theorem allocRes_state (r : CtorRes) (s : St) :
    ((allocRes r s).2.slots = s.slots) ∧ ((allocRes r s).2.log = s.log) ∧
      heapLe s.heap (allocRes r s).2.heap := by
  cases r with
  | val v => exact ⟨rfl, rfl, heapLe_refl _⟩
  | newObj fl at_ => exact ⟨rfl, rfl, heapLe_append _ _⟩

/-! ### The post-resolution phase of a build -/

/-- Everything `finishBuild` does to the state: the heap only grows, exactly
one constructor invocation (with the merged keyword map) is logged, a slot
other than the built conf's — or any slot when the conf does not cache, or
any slot already holding a truthy instance — is untouched, an exception
leaves every slot untouched, and a successful build from a non-truthy slot
stores the built instance in the conf's slot. -/
theorem finishBuild_facts (env : Env)
    (runner : Val → List LCall → St → Except Exc Unit × St) (hro : RunnerOk runner)
    (p : DIParam) (resolved cached : List (String × Val)) (s1 : St) :
    heapLe s1.heap (finishBuild env runner p resolved cached s1).2.heap ∧
    (finishBuild env runner p resolved cached s1).2.log =
      s1.log ++ [⟨p.conf.id, p.conf.cls_, p.conf.args,
        pyUnion (pyUnion resolved cached) p.conf.kwargs⟩] ∧
    (∀ j, (j ≠ p.conf.id ∨ p.conf.cache = false ∨
        (truthy s1.heap (s1.slots j) = true ∧ refBound s1.heap (s1.slots j) = true)) →
      (finishBuild env runner p resolved cached s1).2.slots j = s1.slots j) ∧
    (∀ e s', finishBuild env runner p resolved cached s1 = (.error e, s') →
      s'.slots = s1.slots) ∧
    (∀ v s', finishBuild env runner p resolved cached s1 = (.ok v, s') →
      p.conf.cache = true → truthy s1.heap (s1.slots p.conf.id) = false →
      refBound s1.heap (s1.slots p.conf.id) = true → s'.slots p.conf.id = v) := by
  rcases hbeh : (env.ctors p.conf.cls_).beh p.conf.args
      (pyUnion (pyUnion resolved cached) p.conf.kwargs) with e0 | cres
  · have hfb : finishBuild env runner p resolved cached s1 =
        (.error e0, { s1 with log := s1.log ++ [⟨p.conf.id, p.conf.cls_, p.conf.args,
          pyUnion (pyUnion resolved cached) p.conf.kwargs⟩] }) := by
      simp only [finishBuild, hbeh]
    rw [hfb]
    refine ⟨⟨Nat.le_refl _, fun a _ => rfl⟩, rfl, fun j _ => rfl,
      fun e s' h => ?_, fun v s' h => ?_⟩
    · rw [Prod.mk.injEq] at h
      rw [← h.2]
    · rw [Prod.mk.injEq] at h
      exact absurd h.1 (by simp)
  · rcases hal : allocRes cres
        { s1 with log := s1.log ++ [⟨p.conf.id, p.conf.cls_, p.conf.args,
            pyUnion (pyUnion resolved cached) p.conf.kwargs⟩] } with ⟨d, s3⟩
    have hal3 := allocRes_state cres
      { s1 with log := s1.log ++ [⟨p.conf.id, p.conf.cls_, p.conf.args,
          pyUnion (pyUnion resolved cached) p.conf.kwargs⟩] }
    rw [hal] at hal3
    rcases hat : applyAttrs d p.conf.attrs s3 with ⟨ra, s4⟩
    have hat4 := applyAttrs_state d p.conf.attrs s3
    rw [hat] at hat4
    cases ra with
    | error e1 =>
      have hfb : finishBuild env runner p resolved cached s1 = (.error e1, s4) := by
        simp only [finishBuild, hbeh, hal, hat]
      have hsl4 : s4.slots = s1.slots := by rw [hat4.1, hal3.1]
      have hlog4 : s4.log = s1.log ++ [⟨p.conf.id, p.conf.cls_, p.conf.args,
          pyUnion (pyUnion resolved cached) p.conf.kwargs⟩] := by rw [hat4.2.1, hal3.2.1]
      have hhp4 : heapLe s1.heap s4.heap := heapLe_trans hal3.2.2 hat4.2.2
      rw [hfb]
      refine ⟨hhp4, hlog4, fun j _ => by rw [hsl4], fun e s' h => ?_, fun v s' h => ?_⟩
      · rw [Prod.mk.injEq] at h
        rw [← h.2, hsl4]
      · rw [Prod.mk.injEq] at h
        exact absurd h.1 (by simp)
    | ok u =>
      rcases hrun : runner d p.conf.calls s4 with ⟨rr, s5⟩
      have hro5 := hro d p.conf.calls s4
      rw [hrun] at hro5
      have hsl5 : s5.slots = s1.slots := by rw [hro5.1, hat4.1, hal3.1]
      have hlog5 : s5.log = s1.log ++ [⟨p.conf.id, p.conf.cls_, p.conf.args,
          pyUnion (pyUnion resolved cached) p.conf.kwargs⟩] := by
        rw [hro5.2.2, hat4.2.1, hal3.2.1]
      have hhp5 : heapLe s1.heap s5.heap := by
        rw [hro5.2.1]
        exact heapLe_trans hal3.2.2 hat4.2.2
      cases rr with
      | error e2 =>
        have hfb : finishBuild env runner p resolved cached s1 = (.error e2, s5) := by
          simp only [finishBuild, hbeh, hal, hat, hrun]
        rw [hfb]
        refine ⟨hhp5, hlog5, fun j _ => by rw [hsl5], fun e s' h => ?_, fun v s' h => ?_⟩
        · rw [Prod.mk.injEq] at h
          rw [← h.2, hsl5]
        · rw [Prod.mk.injEq] at h
          exact absurd h.1 (by simp)
      | ok u2 =>
        have htr5 : ∀ j, refBound s1.heap (s1.slots j) = true →
            truthy s5.heap (s5.slots j) = truthy s1.heap (s1.slots j) := by
          intro j hrb
          rw [hsl5]
          exact truthy_heapLe hhp5 (s1.slots j) hrb
        by_cases hg : (p.conf.cache && !truthy s5.heap (s5.slots p.conf.id)) = true
        · have hfb : finishBuild env runner p resolved cached s1 =
              (.ok d, { s5 with
                slots := fun j => if j == p.conf.id then d else s5.slots j }) := by
            simp only [finishBuild, hbeh, hal, hat, hrun, hg, if_true]
          rw [hfb]
          refine ⟨hhp5, hlog5, fun j hj => ?_, fun e s' h => ?_, fun v s' h _ _ _ => ?_⟩
          · show (if j == p.conf.id then d else s5.slots j) = s1.slots j
            by_cases hjid : j = p.conf.id
            · exfalso
              rcases hj with hj | hj | hj
              · exact hj hjid
              · rw [hj] at hg
                simp at hg
              · have htt : truthy s5.heap (s5.slots p.conf.id) = true := by
                  rw [← hjid, htr5 j hj.2]
                  exact hj.1
                rw [htt] at hg
                simp at hg
            · have hb : (j == p.conf.id) = false := beq_eq_false_iff_ne.mpr hjid
              simp [hb, hsl5]
          · rw [Prod.mk.injEq] at h
            exact absurd h.1 (by simp)
          · rw [Prod.mk.injEq] at h
            have hv : d = v := by
              have h1 := h.1
              simp only [Except.ok.injEq] at h1
              exact h1
            rw [← h.2, ← hv]
            show (if p.conf.id == p.conf.id then d else s5.slots p.conf.id) = d
            simp
        · have hfb : finishBuild env runner p resolved cached s1 = (.ok d, s5) := by
            have hg' : (p.conf.cache && !truthy s5.heap (s5.slots p.conf.id)) = false :=
              Bool.not_eq_true _ ▸ eq_false_of_ne_true hg
            simp only [finishBuild, hbeh, hal, hat, hrun, hg', if_false,
              Bool.false_eq_true]
          rw [hfb]
          refine ⟨hhp5, hlog5, fun j _ => by rw [hsl5], fun e s' h => ?_,
            fun v s' h hcache hfalse hrb => ?_⟩
          · rw [Prod.mk.injEq] at h
            exact absurd h.1 (by simp)
          · exfalso
            apply hg
            rw [hcache, htr5 p.conf.id hrb, hfalse]
            rfl

/-! ### The recursive comprehension and the build recursion -/

theorem mem_phaseTodo (cfg : Config) (sig : List Param) (args : List Val)
    (kwargs : List (String × Val)) (s : St) (q : DIParam)
    (h : q ∈ phaseTodo cfg sig args kwargs s) :
    q.param ∈ getParamsToResolve sig args kwargs ∧
      lookupCfg cfg (annName q.param) = some q.conf := by
  have hm : q ∈ phaseParams cfg sig args kwargs := List.mem_of_mem_filter h
  exact mem_getConfigurable cfg _ q hm

theorem buildListF_heapLe (bf : DIParam → St → Except Exc Val × St)
    (hbf : ∀ q s, heapLe s.heap ((bf q s).2).heap) :
    ∀ (l : List DIParam) (acc : List (String × Val)) (s : St),
      heapLe s.heap ((buildListF bf l acc s).2).heap := by
  intro l
  induction l with
  | nil => intro acc s; exact heapLe_refl _
  | cons q rest ih =>
    intro acc s
    rcases hb : bf q s with ⟨r, s1⟩
    have hq := hbf q s
    rw [hb] at hq
    cases r with
    | ok v =>
      simp only [buildListF, hb]
      exact heapLe_trans hq (ih _ s1)
    | error e =>
      simp only [buildListF, hb]
      exact hq

theorem buildListF_logP (bf : DIParam → St → Except Exc Val × St)
    (P : LogEntry → Prop) :
    ∀ (l : List DIParam),
      (∀ q ∈ l, ∀ s, ∃ t, ((bf q s).2).log = s.log ++ t ∧ ∀ e ∈ t, P e) →
      ∀ (acc : List (String × Val)) (s : St),
        ∃ t, ((buildListF bf l acc s).2).log = s.log ++ t ∧ ∀ e ∈ t, P e := by
  intro l
  induction l with
  | nil =>
    intro _ acc s
    exact ⟨[], by simp [buildListF], fun e he => absurd he (List.not_mem_nil e)⟩
  | cons q rest ih =>
    intro hl acc s
    rcases hb : bf q s with ⟨r, s1⟩
    rcases hl q (List.mem_cons_self q rest) s with ⟨t1, ht1, hp1⟩
    rw [hb] at ht1
    cases r with
    | ok v =>
      rcases ih (fun q' hq' => hl q' (List.mem_cons_of_mem q hq')) _ s1 with ⟨t2, ht2, hp2⟩
      refine ⟨t1 ++ t2, ?_, ?_⟩
      · simp only [buildListF, hb]
        rw [ht2, ht1, List.append_assoc]
      · intro e he
        rcases List.mem_append.mp he with he | he
        · exact hp1 e he
        · exact hp2 e he
    | error e0 =>
      refine ⟨t1, ?_, hp1⟩
      simp only [buildListF, hb]
      exact ht1

theorem buildListF_slots (bf : DIParam → St → Except Exc Val × St) (i : Nat) :
    ∀ (l : List DIParam),
      (∀ q ∈ l, ∀ s, ((bf q s).2).slots i = s.slots i) →
      ∀ (acc : List (String × Val)) (s : St),
        ((buildListF bf l acc s).2).slots i = s.slots i := by
  intro l
  induction l with
  | nil => intro _ acc s; rfl
  | cons q rest ih =>
    intro hl acc s
    rcases hb : bf q s with ⟨r, s1⟩
    have hq := hl q (List.mem_cons_self q rest) s
    rw [hb] at hq
    cases r with
    | ok v =>
      simp only [buildListF, hb]
      rw [ih (fun q' hq' => hl q' (List.mem_cons_of_mem q hq')) _ s1]
      exact hq
    | error e =>
      simp only [buildListF, hb]
      exact hq

theorem buildListF_slots_good (bf : DIParam → St → Except Exc Val × St) (i : Nat)
    (hbf2 : ∀ q s, heapLe s.heap ((bf q s).2).heap)
    (hbf1 : ∀ q s, truthy s.heap (s.slots i) = true →
      refBound s.heap (s.slots i) = true → ((bf q s).2).slots i = s.slots i) :
    ∀ (l : List DIParam) (acc : List (String × Val)) (s : St),
      truthy s.heap (s.slots i) = true → refBound s.heap (s.slots i) = true →
      ((buildListF bf l acc s).2).slots i = s.slots i := by
  intro l
  induction l with
  | nil => intro acc s _ _; rfl
  | cons q rest ih =>
    intro acc s h1 h2
    rcases hb : bf q s with ⟨r, s1⟩
    have hsl := hbf1 q s h1 h2
    have hhp := hbf2 q s
    rw [hb] at hsl hhp
    have h1' : truthy s1.heap (s1.slots i) = true := by
      rw [hsl, truthy_heapLe hhp (s.slots i) h2]
      exact h1
    have h2' : refBound s1.heap (s1.slots i) = true := by
      rw [hsl]
      exact refBound_heapLe hhp (s.slots i) h2
    cases r with
    | ok v =>
      simp only [buildListF, hb]
      rw [ih _ s1 h1' h2']
      exact hsl
    | error e =>
      simp only [buildListF, hb]
      exact hsl

theorem buildD_heapLe (cfg : Config) (env : Env)
    (runner : Val → List LCall → St → Except Exc Unit × St) (hro : RunnerOk runner) :
    ∀ (f : Nat) (p : DIParam) (s : St),
      heapLe s.heap ((buildD cfg env runner f p s).2).heap := by
  intro f
  induction f with
  | zero => intro p s; exact heapLe_refl _
  | succ f ih =>
    intro p s
    rcases hb : buildListF (buildD cfg env runner f)
        (phaseTodo cfg (env.ctors p.conf.cls_).sig [] [] s) [] s with ⟨r, s1⟩
    have hl := buildListF_heapLe (buildD cfg env runner f) ih
      (phaseTodo cfg (env.ctors p.conf.cls_).sig [] [] s) [] s
    rw [hb] at hl
    cases r with
    | error e =>
      simp only [buildD, hb]
      exact hl
    | ok resolved =>
      simp only [buildD, hb]
      exact heapLe_trans hl
        (finishBuild_facts env runner hro p resolved
          (phaseCached cfg (env.ctors p.conf.cls_).sig [] [] s) s1).1

theorem buildD_log (cfg : Config) (env : Env)
    (runner : Val → List LCall → St → Except Exc Unit × St) (hro : RunnerOk runner) :
    ∀ (f : Nat) (p : DIParam) (s : St),
      ∃ t, ((buildD cfg env runner f p s).2).log = s.log ++ t := by
  intro f
  induction f with
  | zero => intro p s; exact ⟨[], by simp [buildD]⟩
  | succ f ih =>
    intro p s
    rcases hb : buildListF (buildD cfg env runner f)
        (phaseTodo cfg (env.ctors p.conf.cls_).sig [] [] s) [] s with ⟨r, s1⟩
    have hl := buildListF_logP (buildD cfg env runner f) (fun _ => True)
      (phaseTodo cfg (env.ctors p.conf.cls_).sig [] [] s)
      (fun q _ s' => by
        rcases ih q s' with ⟨t, ht⟩
        exact ⟨t, ht, fun _ _ => trivial⟩)
      [] s
    rcases hl with ⟨t1, ht1, _⟩
    rw [hb] at ht1
    cases r with
    | error e =>
      simp only [buildD, hb]
      exact ⟨t1, ht1⟩
    | ok resolved =>
      simp only [buildD, hb]
      have hfb := (finishBuild_facts env runner hro p resolved
        (phaseCached cfg (env.ctors p.conf.cls_).sig [] [] s) s1).2.1
      rw [hfb, ht1, List.append_assoc]
      exact ⟨_, rfl⟩

/-- A slot that no cache-enabled registry conf owns is never written: in
particular, recipes with `cache = False` never populate their slot. -/
theorem buildD_slots_cacheFalse (cfg : Config) (env : Env)
    (runner : Val → List LCall → St → Except Exc Unit × St) (hro : RunnerOk runner)
    (i : Nat) (hcfg : ∀ n c, lookupCfg cfg n = some c → c.id = i → c.cache = false) :
    ∀ (f : Nat) (p : DIParam) (s : St), (p.conf.id = i → p.conf.cache = false) →
      ((buildD cfg env runner f p s).2).slots i = s.slots i := by
  intro f
  induction f with
  | zero => intro p s _; rfl
  | succ f ih =>
    intro p s hp
    rcases hb : buildListF (buildD cfg env runner f)
        (phaseTodo cfg (env.ctors p.conf.cls_).sig [] [] s) [] s with ⟨r, s1⟩
    have hl := buildListF_slots (buildD cfg env runner f) i
      (phaseTodo cfg (env.ctors p.conf.cls_).sig [] [] s)
      (fun q hq s' => by
        rcases mem_phaseTodo cfg _ [] [] s q hq with ⟨_, hlook⟩
        exact ih q s' (fun hid => hcfg (annName q.param) q.conf hlook hid))
      [] s
    rw [hb] at hl
    cases r with
    | error e =>
      simp only [buildD, hb]
      exact hl
    | ok resolved =>
      simp only [buildD, hb]
      have hfb := (finishBuild_facts env runner hro p resolved
        (phaseCached cfg (env.ctors p.conf.cls_).sig [] [] s) s1).2.2.1
      have hcond : (i ≠ p.conf.id ∨ p.conf.cache = false ∨
          (truthy s1.heap (s1.slots i) = true ∧ refBound s1.heap (s1.slots i) = true)) := by
        by_cases hid : p.conf.id = i
        · exact Or.inr (Or.inl (hp hid))
        · exact Or.inl (fun h => hid h.symm)
      rw [hfb i hcond, hl]

/-- A slot already holding a truthy, heap-valid instance is never
overwritten by any build. -/
theorem buildD_slots_truthy (cfg : Config) (env : Env)
    (runner : Val → List LCall → St → Except Exc Unit × St) (hro : RunnerOk runner)
    (i : Nat) :
    ∀ (f : Nat) (p : DIParam) (s : St),
      truthy s.heap (s.slots i) = true → refBound s.heap (s.slots i) = true →
      ((buildD cfg env runner f p s).2).slots i = s.slots i := by
  intro f
  induction f with
  | zero => intro p s _ _; rfl
  | succ f ih =>
    intro p s h1 h2
    rcases hb : buildListF (buildD cfg env runner f)
        (phaseTodo cfg (env.ctors p.conf.cls_).sig [] [] s) [] s with ⟨r, s1⟩
    have hl := buildListF_slots_good (buildD cfg env runner f) i
      (buildD_heapLe cfg env runner hro f) (fun q s' => ih q s')
      (phaseTodo cfg (env.ctors p.conf.cls_).sig [] [] s) [] s h1 h2
    have hhp := buildListF_heapLe (buildD cfg env runner f)
      (buildD_heapLe cfg env runner hro f)
      (phaseTodo cfg (env.ctors p.conf.cls_).sig [] [] s) [] s
    rw [hb] at hl hhp
    cases r with
    | error e =>
      simp only [buildD, hb]
      exact hl
    | ok resolved =>
      simp only [buildD, hb]
      have h1' : truthy s1.heap (s1.slots i) = true := by
        rw [hl, truthy_heapLe hhp _ h2]
        exact h1
      have h2' : refBound s1.heap (s1.slots i) = true := by
        rw [hl]
        exact refBound_heapLe hhp _ h2
      have hfb := (finishBuild_facts env runner hro p resolved
        (phaseCached cfg (env.ctors p.conf.cls_).sig [] [] s) s1).2.2.1
      rw [hfb i (Or.inr (Or.inr ⟨h1', h2'⟩)), hl]

/-- In an acyclic registry, building a conf looked up at rank `rank n` never
writes a slot whose owners all sit at rank `rank n` or above. -/
theorem buildD_slots_rank (cfg : Config) (env : Env)
    (runner : Val → List LCall → St → Except Exc Unit × St) (hro : RunnerOk runner)
    (rank : String → Nat)
    (hra : ∀ n c, lookupCfg cfg n = some c →
      ∀ pm ∈ getParamsToResolve (env.ctors c.cls_).sig [] [],
        ∀ c', lookupCfg cfg (annName pm) = some c' → rank (annName pm) < rank n) :
    ∀ (f : Nat) (n : String) (c : DIConf) (prm : Param) (s : St) (i : Nat),
      lookupCfg cfg n = some c →
      (∀ n' c', lookupCfg cfg n' = some c' → c'.id = i → ¬ rank n' ≤ rank n) →
      ((buildD cfg env runner f ⟨c, prm⟩ s).2).slots i = s.slots i := by
  intro f
  induction f with
  | zero => intro n c prm s i _ _; rfl
  | succ f ih =>
    intro n c prm s i hlook hble
    rcases hb : buildListF (buildD cfg env runner f)
        (phaseTodo cfg (env.ctors c.cls_).sig [] [] s) [] s with ⟨r, s1⟩
    have hl := buildListF_slots (buildD cfg env runner f) i
      (phaseTodo cfg (env.ctors c.cls_).sig [] [] s)
      (fun q hq s' => by
        rcases mem_phaseTodo cfg _ [] [] s q hq with ⟨hmem, hlookq⟩
        have hrank := hra n c hlook q.param hmem q.conf hlookq
        exact ih (annName q.param) q.conf q.param s' i hlookq
          (fun n' c' hl' hid' hle =>
            hble n' c' hl' hid' (Nat.le_trans hle (Nat.le_of_lt hrank))))
      [] s
    rw [hb] at hl
    cases r with
    | error e =>
      simp only [buildD, hb]
      exact hl
    | ok resolved =>
      simp only [buildD, hb]
      have hcid : c.id ≠ i := fun h => hble n c hlook h (Nat.le_refl _)
      have hfb := (finishBuild_facts env runner hro ⟨c, prm⟩ resolved
        (phaseCached cfg (env.ctors c.cls_).sig [] [] s) s1).2.2.1
      rw [hfb i (Or.inl (fun h => hcid h.symm)), hl]

/-- The log entries appended by a build all belong to registry confs at the
built conf's rank or below, and a successful build logs exactly one
invocation of its own conf. -/
theorem buildD_log_rank (cfg : Config) (env : Env)
    (runner : Val → List LCall → St → Except Exc Unit × St) (hro : RunnerOk runner)
    (rank : String → Nat)
    (hra : ∀ n c, lookupCfg cfg n = some c →
      ∀ pm ∈ getParamsToResolve (env.ctors c.cls_).sig [] [],
        ∀ c', lookupCfg cfg (annName pm) = some c' → rank (annName pm) < rank n)
    (hwf : WFids cfg) :
    ∀ (f : Nat) (n : String) (c : DIConf) (prm : Param) (s : St),
      lookupCfg cfg n = some c →
      ∃ t, ((buildD cfg env runner f ⟨c, prm⟩ s).2).log = s.log ++ t ∧
        (∀ e ∈ t, ∃ n' c', lookupCfg cfg n' = some c' ∧ e.confId = c'.id ∧
          rank n' ≤ rank n) ∧
        (∀ v s', buildD cfg env runner f ⟨c, prm⟩ s = (.ok v, s') →
          t.countP (fun e => e.confId == c.id) = 1) := by
  intro f
  induction f with
  | zero =>
    intro n c prm s _
    refine ⟨[], by simp [buildD], fun e he => absurd he (List.not_mem_nil e),
      fun v s' h => ?_⟩
    rw [buildD, Prod.mk.injEq] at h
    exact absurd h.1 (by simp)
  | succ f ih =>
    intro n c prm s hlook
    rcases hb : buildListF (buildD cfg env runner f)
        (phaseTodo cfg (env.ctors c.cls_).sig [] [] s) [] s with ⟨r, s1⟩
    rcases buildListF_logP (buildD cfg env runner f)
      (fun e => ∃ n' c', lookupCfg cfg n' = some c' ∧ e.confId = c'.id ∧
        rank n' < rank n)
      (phaseTodo cfg (env.ctors c.cls_).sig [] [] s)
      (fun q hq s' => by
        rcases mem_phaseTodo cfg _ [] [] s q hq with ⟨hmem, hlookq⟩
        have hrank := hra n c hlook q.param hmem q.conf hlookq
        rcases ih (annName q.param) q.conf q.param s' hlookq with ⟨t, ht, hprop, _⟩
        refine ⟨t, ht, fun e he => ?_⟩
        rcases hprop e he with ⟨n2, c2, ha, hbq, hcq⟩
        exact ⟨n2, c2, ha, hbq, Nat.lt_of_le_of_lt hcq hrank⟩)
      [] s with ⟨t1, ht1, hp1⟩
    rw [hb] at ht1
    cases r with
    | error e0 =>
      refine ⟨t1, by simp only [buildD, hb]; exact ht1, fun e he => ?_, fun v s' h => ?_⟩
      · rcases hp1 e he with ⟨n2, c2, ha, hbq, hcq⟩
        exact ⟨n2, c2, ha, hbq, Nat.le_of_lt hcq⟩
      · exfalso
        rw [show buildD cfg env runner (Nat.succ f) ⟨c, prm⟩ s = (.error e0, s1) from by
          simp only [buildD, hb]] at h
        rw [Prod.mk.injEq] at h
        exact absurd h.1 (by simp)
    | ok resolved =>
      have hfb := finishBuild_facts env runner hro ⟨c, prm⟩ resolved
        (phaseCached cfg (env.ctors c.cls_).sig [] [] s) s1
      refine ⟨t1 ++ [⟨c.id, c.cls_, c.args,
        pyUnion (pyUnion resolved (phaseCached cfg (env.ctors c.cls_).sig [] [] s))
          c.kwargs⟩], ?_, ?_, ?_⟩
      · simp only [buildD, hb]
        rw [hfb.2.1, ht1, List.append_assoc]
      · intro e he
        rcases List.mem_append.mp he with he | he
        · rcases hp1 e he with ⟨n2, c2, ha, hbq, hcq⟩
          exact ⟨n2, c2, ha, hbq, Nat.le_of_lt hcq⟩
        · rw [List.mem_singleton.mp he]
          exact ⟨n, c, hlook, rfl, Nat.le_refl _⟩
      · intro v s' _
        rw [List.countP_append]
        have hz : t1.countP (fun e => e.confId == c.id) = 0 := by
          rw [List.countP_eq_zero]
          intro e he hbq
          rcases hp1 e he with ⟨n2, c2, ha, hid, hcq⟩
          have hcc : c2.id = c.id := by
            rw [← hid]
            exact beq_iff_eq.mp hbq
          rcases WFids_unique cfg hwf n2 n c2 c ha hlook hcc with ⟨rfl, rfl⟩
          exact absurd hcq (Nat.lt_irrefl _)
        rw [hz]
        simp [List.countP_cons]

/-- A successful build of a cache-enabled conf from a non-truthy slot leaves
the built instance in the conf's slot ("first build wins" for the cache). -/
theorem buildD_key (cfg : Config) (env : Env)
    (runner : Val → List LCall → St → Except Exc Unit × St) (hro : RunnerOk runner)
    (rank : String → Nat)
    (hra : ∀ n c, lookupCfg cfg n = some c →
      ∀ pm ∈ getParamsToResolve (env.ctors c.cls_).sig [] [],
        ∀ c', lookupCfg cfg (annName pm) = some c' → rank (annName pm) < rank n)
    (hwf : WFids cfg) :
    ∀ (f : Nat) (n : String) (c : DIConf) (prm : Param) (s : St) (v : Val) (s' : St),
      lookupCfg cfg n = some c →
      buildD cfg env runner f ⟨c, prm⟩ s = (.ok v, s') →
      c.cache = true → truthy s.heap (s.slots c.id) = false →
      refBound s.heap (s.slots c.id) = true →
      s'.slots c.id = v := by
  intro f
  cases f with
  | zero =>
    intro n c prm s v s' _ h
    rw [buildD, Prod.mk.injEq] at h
    exact absurd h.1 (by simp)
  | succ f =>
    intro n c prm s v s' hlook h hcache hfalse hrb
    rcases hb : buildListF (buildD cfg env runner f)
        (phaseTodo cfg (env.ctors c.cls_).sig [] [] s) [] s with ⟨r, s1⟩
    have hl := buildListF_slots (buildD cfg env runner f) c.id
      (phaseTodo cfg (env.ctors c.cls_).sig [] [] s)
      (fun q hq s2 => by
        rcases mem_phaseTodo cfg _ [] [] s q hq with ⟨hmem, hlookq⟩
        have hrank := hra n c hlook q.param hmem q.conf hlookq
        refine buildD_slots_rank cfg env runner hro rank hra f (annName q.param)
          q.conf q.param s2 c.id hlookq ?_
        intro n' c' hl' hid' hle
        rcases WFids_unique cfg hwf n' n c' c hl' hlook hid' with ⟨rfl, rfl⟩
        exact absurd (Nat.lt_of_le_of_lt hle hrank) (Nat.lt_irrefl _))
      [] s
    have hhp := buildListF_heapLe (buildD cfg env runner f)
      (buildD_heapLe cfg env runner hro f)
      (phaseTodo cfg (env.ctors c.cls_).sig [] [] s) [] s
    rw [hb] at hl hhp
    cases r with
    | error e0 =>
      rw [show buildD cfg env runner (Nat.succ f) ⟨c, prm⟩ s = (.error e0, s1) from by
        simp only [buildD, hb]] at h
      rw [Prod.mk.injEq] at h
      exact absurd h.1 (by simp)
    | ok resolved =>
      rw [show buildD cfg env runner (Nat.succ f) ⟨c, prm⟩ s =
          finishBuild env runner ⟨c, prm⟩ resolved
            (phaseCached cfg (env.ctors c.cls_).sig [] [] s) s1 from by
        simp only [buildD, hb]] at h
      have hfb := (finishBuild_facts env runner hro ⟨c, prm⟩ resolved
        (phaseCached cfg (env.ctors c.cls_).sig [] [] s) s1).2.2.2.2
      have h1' : truthy s1.heap (s1.slots c.id) = false := by
        rw [hl, truthy_heapLe hhp _ hrb]
        exact hfalse
      have h2' : refBound s1.heap (s1.slots c.id) = true := by
        rw [hl]
        exact refBound_heapLe hhp _ hrb
      exact hfb v s' h hcache h1' h2'

/-! ### Characterizing parameter discovery -/

theorem popParam_append (acc : List Param) (p : Param) (r : List Param)
    (h : p.name ∉ acc.map Param.name) :
    popParam (acc ++ p :: r) p.name = acc ++ r := by
  induction acc with
  | nil => simp [popParam]
  | cons a t ih =>
    simp only [List.map_cons, List.mem_cons] at h
    push_neg at h
    simp only [List.cons_append, popParam]
    rw [if_neg (fun hh => h.1 hh.symm)]
    show a :: popParam (t ++ p :: r) p.name = a :: (t ++ r)
    rw [ih h.2]

theorem containsName_popKey_ne (l : List (String × Val)) (m n : String) (h : m ≠ n) :
    containsName (popKey l m) n = containsName l n := by
  induction l with
  | nil => rfl
  | cons kv t ih =>
    rcases kv with ⟨k, v⟩
    by_cases hk : k = m
    · subst hk
      rw [popKey, if_pos rfl]
      simp [containsName, show (k == n) = false from beq_eq_false_iff_ne.mpr h]
    · rw [popKey, if_neg hk]
      simp [containsName, ih]

theorem containsName_of_isEmpty (l : List (String × Val)) (n : String)
    (h : l.isEmpty = true) : containsName l n = false := by
  cases l with
  | nil => rfl
  | cons kv t => simp [List.isEmpty] at h

/-- The discovery loop computes: drop as many leading declared parameters
as there are positional arguments, then drop those whose name is a supplied
keyword. -/
theorem gprLoop_char :
    ∀ (rest : List Param) (args_ : List Val) (kwargs_ : List (String × Val))
      (acc : List Param),
      ((acc ++ rest).map Param.name).Nodup →
      gprLoop rest args_ kwargs_ (acc ++ rest) =
        acc ++ (rest.drop args_.length).filter (fun p => !containsName kwargs_ p.name) := by
  intro rest
  induction rest with
  | nil =>
    intro args_ kwargs_ acc _
    simp [gprLoop]
  | cons p rest ih =>
    intro args_ kwargs_ acc hnd
    have hshift : acc ++ p :: rest = (acc ++ [p]) ++ rest := by simp
    have hna : ((acc ++ rest).map Param.name).Nodup := by
      rw [List.map_append] at hnd ⊢
      rw [List.nodup_append] at hnd ⊢
      refine ⟨hnd.1, ?_, ?_⟩
      · have := hnd.2.1
        simp only [List.map_cons, List.nodup_cons] at this
        exact this.2
      · intro x hx hx2
        exact hnd.2.2 hx (by simp only [List.map_cons, List.mem_cons]; exact Or.inr hx2)
    have hpn : p.name ∉ acc.map Param.name := by
      rw [List.map_append, List.nodup_append] at hnd
      intro hmem
      exact hnd.2.2 hmem (by simp)
    have hprest : p.name ∉ rest.map Param.name := by
      rw [List.map_append, List.nodup_append] at hnd
      have := hnd.2.1
      simp only [List.map_cons, List.nodup_cons] at this
      exact this.1
    cases args_ with
    | cons a as_ =>
      simp only [gprLoop]
      rw [popParam_append acc p rest hpn, ih as_ kwargs_ acc hna]
      simp
    | nil =>
      by_cases hke : kwargs_.isEmpty = true
      · simp only [gprLoop, hke, if_true]
        rw [hshift, ih [] kwargs_ (acc ++ [p]) (by rw [← hshift]; exact hnd)]
        have : containsName kwargs_ p.name = false := containsName_of_isEmpty _ _ hke
        simp [List.filter_cons, this]
      · rw [show gprLoop (p :: rest) [] kwargs_ (acc ++ p :: rest) =
            (if kwargs_.isEmpty then gprLoop rest [] kwargs_ (acc ++ p :: rest)
             else if containsName kwargs_ p.name then
               gprLoop rest [] (popKey kwargs_ p.name)
                 (popParam (acc ++ p :: rest) p.name)
             else gprLoop rest [] kwargs_ (acc ++ p :: rest)) from rfl]
        rw [if_neg hke]
        by_cases hc : containsName kwargs_ p.name = true
        · rw [if_pos hc, popParam_append acc p rest hpn,
            ih [] (popKey kwargs_ p.name) acc hna]
          have hfc : rest.filter (fun q => !containsName (popKey kwargs_ p.name) q.name) =
              rest.filter (fun q => !containsName kwargs_ q.name) := by
            apply List.filter_congr
            intro q hq
            have hqp : p.name ≠ q.name := by
              intro he
              exact hprest (he ▸ List.mem_map_of_mem Param.name hq)
            rw [containsName_popKey_ne kwargs_ p.name q.name hqp]
          simp [hfc, List.filter_cons, hc]
        · rw [if_neg hc]
          rw [hshift, ih [] kwargs_ (acc ++ [p]) (by rw [← hshift]; exact hnd)]
          have hcf : containsName kwargs_ p.name = false := by
            rcases hcc : containsName kwargs_ p.name with _ | _
            · rfl
            · exact absurd hcc hc
          simp [List.filter_cons, hcf]

/-- `_get_params_to_resolve` computes exactly: the declared parameters
beyond the supplied positional prefix whose names are not supplied
keywords. -/
theorem getParamsToResolve_char (sig : List Param) (args : List Val)
    (kwargs : List (String × Val)) (hnd : (sig.map Param.name).Nodup) :
    getParamsToResolve sig args kwargs =
      (sig.drop args.length).filter (fun p => !containsName kwargs p.name) := by
  have := gprLoop_char sig args kwargs [] (by simpa using hnd)
  simpa [getParamsToResolve] using this

/-! ### The store-level discovery loop -/

theorem getDL_set_ne {α : Type} (l : List α) (i j : Nat) (x d : α) (h : i ≠ j) :
    (l.set i x).getD j d = l.getD j d := by
  simp [List.getD, List.getElem?_set_ne h]

theorem getDL_set_eq {α : Type} (l : List α) (i : Nat) (x d : α) (h : i < l.length) :
    (l.set i x).getD i d = x := by
  simp [List.getD, List.getElem?_set_eq_of_lt x h]

theorem getDL_append_left {α : Type} (l l2 : List α) (j : Nat) (d : α)
    (h : j < l.length) : (l ++ l2).getD j d = l.getD j d :=
  List.getD_append l l2 d j h

theorem getDL_append_len {α : Type} (l : List α) (x d : α) :
    (l ++ [x]).getD l.length d = x := by
  simp [List.getD, List.getElem?_append_right (Nat.le_refl l.length)]

theorem gprHLoop_frame :
    ∀ (sig : List Param) (aR kR : Nat) (st : ArgStore) (ps : List Param),
      (∀ j, j ≠ aR →
        ((gprHLoop sig aR kR st ps).2).argCells.getD j [] = st.argCells.getD j []) ∧
      (∀ j, j ≠ kR →
        ((gprHLoop sig aR kR st ps).2).kwCells.getD j [] = st.kwCells.getD j []) := by
  intro sig
  induction sig with
  | nil => intro aR kR st ps; exact ⟨fun _ _ => rfl, fun _ _ => rfl⟩
  | cons p rest ih =>
    intro aR kR st ps
    rcases hc : st.argCells.getD aR [] with _ | ⟨a, as_⟩
    · by_cases hke : (st.kwCells.getD kR []).isEmpty = true
      · have hstep : gprHLoop (p :: rest) aR kR st ps = gprHLoop rest aR kR st ps := by
          simp only [gprHLoop, hc]
          rw [if_pos hke]
        rw [hstep]
        exact ih aR kR st ps
      · by_cases hcn : containsName (st.kwCells.getD kR []) p.name = true
        · have hstep : gprHLoop (p :: rest) aR kR st ps =
              gprHLoop rest aR kR
                { st with kwCells :=
                    st.kwCells.set kR (popKey (st.kwCells.getD kR []) p.name) }
                (popParam ps p.name) := by
            simp only [gprHLoop, hc]
            rw [if_neg hke, if_pos hcn]
          rw [hstep]
          refine ⟨fun j hj => ?_, fun j hj => ?_⟩
          · rw [(ih aR kR _ (popParam ps p.name)).1 j hj]
          · rw [(ih aR kR _ (popParam ps p.name)).2 j hj]
            exact getDL_set_ne _ kR j _ _ (Ne.symm hj)
        · have hstep : gprHLoop (p :: rest) aR kR st ps = gprHLoop rest aR kR st ps := by
            simp only [gprHLoop, hc]
            rw [if_neg hke, if_neg hcn]
          rw [hstep]
          exact ih aR kR st ps
    · have hstep : gprHLoop (p :: rest) aR kR st ps =
          gprHLoop rest aR kR { st with argCells := st.argCells.set aR as_ }
            (popParam ps p.name) := by
        simp only [gprHLoop, hc]
      rw [hstep]
      refine ⟨fun j hj => ?_, fun j hj => ?_⟩
      · rw [(ih aR kR _ (popParam ps p.name)).1 j hj]
        exact getDL_set_ne _ aR j _ _ (Ne.symm hj)
      · rw [(ih aR kR _ (popParam ps p.name)).2 j hj]

theorem gprHLoop_agree :
    ∀ (sig : List Param) (aR kR : Nat) (st : ArgStore) (ps : List Param),
      aR < st.argCells.length → kR < st.kwCells.length →
      (gprHLoop sig aR kR st ps).1 =
        gprLoop sig (st.argCells.getD aR []) (st.kwCells.getD kR []) ps := by
  intro sig
  induction sig with
  | nil => intro aR kR st ps _ _; rfl
  | cons p rest ih =>
    intro aR kR st ps ha hk
    rcases hc : st.argCells.getD aR [] with _ | ⟨a, as_⟩
    · by_cases hke : (st.kwCells.getD kR []).isEmpty = true
      · have hstep : gprHLoop (p :: rest) aR kR st ps = gprHLoop rest aR kR st ps := by
          simp only [gprHLoop, hc]
          rw [if_pos hke]
        rw [hstep, ih aR kR st ps ha hk, hc]
        rw [show gprLoop (p :: rest) [] (st.kwCells.getD kR []) ps =
            gprLoop rest [] (st.kwCells.getD kR []) ps from by
          simp only [gprLoop]
          rw [if_pos hke]]
      · by_cases hcn : containsName (st.kwCells.getD kR []) p.name = true
        · have hstep : gprHLoop (p :: rest) aR kR st ps =
              gprHLoop rest aR kR
                { st with kwCells :=
                    st.kwCells.set kR (popKey (st.kwCells.getD kR []) p.name) }
                (popParam ps p.name) := by
            simp only [gprHLoop, hc]
            rw [if_neg hke, if_pos hcn]
          rw [hstep, ih aR kR _ (popParam ps p.name) (by simpa using ha)
            (by simpa using hk)]
          rw [show gprLoop (p :: rest) [] (st.kwCells.getD kR []) ps =
              gprLoop rest [] (popKey (st.kwCells.getD kR []) p.name)
                (popParam ps p.name) from by
            simp only [gprLoop]
            rw [if_neg hke, if_pos hcn]]
          show gprLoop rest (st.argCells.getD aR [])
              ((st.kwCells.set kR (popKey (st.kwCells.getD kR []) p.name)).getD kR [])
              (popParam ps p.name) =
            gprLoop rest [] (popKey (st.kwCells.getD kR []) p.name) (popParam ps p.name)
          rw [hc, getDL_set_eq _ kR _ _ hk]
        · have hstep : gprHLoop (p :: rest) aR kR st ps = gprHLoop rest aR kR st ps := by
            simp only [gprHLoop, hc]
            rw [if_neg hke, if_neg hcn]
          rw [hstep, ih aR kR st ps ha hk, hc]
          rw [show gprLoop (p :: rest) [] (st.kwCells.getD kR []) ps =
              gprLoop rest [] (st.kwCells.getD kR []) ps from by
            simp only [gprLoop]
            rw [if_neg hke, if_neg hcn]]
    · have hstep : gprHLoop (p :: rest) aR kR st ps =
          gprHLoop rest aR kR { st with argCells := st.argCells.set aR as_ }
            (popParam ps p.name) := by
        simp only [gprHLoop, hc]
      rw [hstep, ih aR kR _ (popParam ps p.name) (by simpa using ha) (by simpa using hk)]
      rw [show gprLoop (p :: rest) (a :: as_) (st.kwCells.getD kR []) ps =
          gprLoop rest as_ (st.kwCells.getD kR []) (popParam ps p.name) from by
        simp only [gprLoop]]
      show gprLoop rest ((st.argCells.set aR as_).getD aR []) (st.kwCells.getD kR [])
          (popParam ps p.name) =
        gprLoop rest as_ (st.kwCells.getD kR []) (popParam ps p.name)
      rw [getDL_set_eq _ aR _ _ ha]

/-! ### Keys of the resolved and cached maps -/

theorem buildListF_keys (bf : DIParam → St → Except Exc Val × St) :
    ∀ (l : List DIParam) (acc : List (String × Val)) (s : St)
      (r : List (String × Val)) (s' : St),
      buildListF bf l acc s = (.ok r, s') →
      r.map Prod.fst = acc.map Prod.fst ++ l.map (fun q => q.param.name) := by
  intro l
  induction l with
  | nil =>
    intro acc s r s' h
    rw [buildListF, Prod.mk.injEq] at h
    rw [← (Except.ok.injEq _ _).mp h.1]
    simp
  | cons q rest ih =>
    intro acc s r s' h
    rcases hb : bf q s with ⟨rr, s1⟩
    cases rr with
    | ok v =>
      rw [show buildListF bf (q :: rest) acc s =
          buildListF bf rest (acc ++ [(q.param.name, v)]) s1 from by
        simp only [buildListF, hb]] at h
      have := ih _ s1 r s' h
      simpa using this
    | error e =>
      rw [show buildListF bf (q :: rest) acc s = (.error e, s1) from by
        simp only [buildListF, hb], Prod.mk.injEq] at h
      exact absurd h.1 (by simp)

theorem getCached_name (slots : Nat → Val) (heap : List Obj) (ps : List DIParam)
    (n : String) (v : Val) (h : (n, v) ∈ getCached slots heap ps) :
    ∃ p ∈ ps, p.param.name = n := by
  rcases List.mem_filterMap.mp h with ⟨p, hp, he⟩
  by_cases hc : (p.conf.cache && truthy heap (slots p.conf.id)) = true
  · simp only [hc, if_true] at he
    refine ⟨p, hp, ?_⟩
    have := (Option.some.injEq _ _).mp he
    exact congrArg Prod.fst this
  · rw [if_neg (by simp at hc ⊢; exact hc)] at he
    cases he

theorem lookupStr_none_of_not_key (l : List (String × Val)) (n : String)
    (h : n ∉ l.map Prod.fst) : lookupStr l n = none := by
  rcases hl : lookupStr l n with _ | v
  · rfl
  · exact absurd (List.mem_map_of_mem Prod.fst (lookupStr_some_mem l n v hl)) h

/-- A successful build at positive fuel determines its own ingredients: the
`resolved` map is the literal output of the recursive comprehension over
exactly the todo parameters (keys = their names in order), the cached map is
the literal `_get_cached` output for the configurable parameters, and the
constructor invocation logged last carries `conf.args` and
`resolved | cached | conf.kwargs` built from those two maps. -/
theorem buildD_succ_ok_resolved (cfg : Config) (env : Env)
    (runner : Val → List LCall → St → Except Exc Unit × St) (hro : RunnerOk runner)
    (f : Nat) (p : DIParam) (s : St) (v : Val) (s' : St)
    (h : buildD cfg env runner (f + 1) p s = (.ok v, s')) :
    ∃ resolved s1,
      buildListF (buildD cfg env runner f)
          (phaseTodo cfg (env.ctors p.conf.cls_).sig [] [] s) [] s
        = (.ok resolved, s1) ∧
      resolved.map Prod.fst =
        (phaseTodo cfg (env.ctors p.conf.cls_).sig [] [] s).map
          (fun q => q.param.name) ∧
      s'.log = s1.log ++ [⟨p.conf.id, p.conf.cls_, p.conf.args,
        pyUnion (pyUnion resolved
          (phaseCached cfg (env.ctors p.conf.cls_).sig [] [] s)) p.conf.kwargs⟩] := by
  rcases hb : buildListF (buildD cfg env runner f)
      (phaseTodo cfg (env.ctors p.conf.cls_).sig [] [] s) [] s with ⟨r, s1⟩
  cases r with
  | error e =>
    rw [show buildD cfg env runner (f + 1) p s = (.error e, s1) from by
      simp only [buildD, hb], Prod.mk.injEq] at h
    exact absurd h.1 (by simp)
  | ok resolved =>
    rw [show buildD cfg env runner (f + 1) p s =
        finishBuild env runner p resolved
          (phaseCached cfg (env.ctors p.conf.cls_).sig [] [] s) s1 from by
      simp only [buildD, hb]] at h
    have hlog := (finishBuild_facts env runner hro p resolved
      (phaseCached cfg (env.ctors p.conf.cls_).sig [] [] s) s1).2.1
    rw [h] at hlog
    have hkeys := buildListF_keys (buildD cfg env runner f)
      (phaseTodo cfg (env.ctors p.conf.cls_).sig [] [] s) [] s resolved s1 hb
    exact ⟨resolved, s1, rfl, by simpa using hkeys, hlog⟩

/-- A failed build of a conf in an acyclic registry leaves that conf's slot
exactly as it was: the slot is written only after the constructor, the
attribute assignments and the lifecycle calls have all succeeded. -/
theorem buildD_error_slot (cfg : Config) (env : Env)
    (runner : Val → List LCall → St → Except Exc Unit × St) (hro : RunnerOk runner)
    (rank : String → Nat)
    (hra : ∀ n c, lookupCfg cfg n = some c →
      ∀ pm ∈ getParamsToResolve (env.ctors c.cls_).sig [] [],
        ∀ c', lookupCfg cfg (annName pm) = some c' → rank (annName pm) < rank n)
    (hwf : WFids cfg) (f : Nat) (n : String) (c : DIConf) (prm : Param) (s : St)
    (e : Exc) (s' : St) (hlook : lookupCfg cfg n = some c)
    (h : buildD cfg env runner f ⟨c, prm⟩ s = (.error e, s')) :
    s'.slots c.id = s.slots c.id := by
  cases f with
  | zero =>
    rw [buildD, Prod.mk.injEq] at h
    rw [← h.2]
  | succ f =>
    rcases hb : buildListF (buildD cfg env runner f)
        (phaseTodo cfg (env.ctors c.cls_).sig [] [] s) [] s with ⟨r, s1⟩
    have hl := buildListF_slots (buildD cfg env runner f) c.id
      (phaseTodo cfg (env.ctors c.cls_).sig [] [] s)
      (fun q hq s2 => by
        rcases mem_phaseTodo cfg _ [] [] s q hq with ⟨hmem, hlookq⟩
        have hrank := hra n c hlook q.param hmem q.conf hlookq
        refine buildD_slots_rank cfg env runner hro rank hra f (annName q.param)
          q.conf q.param s2 c.id hlookq ?_
        intro n' c' hl' hid' hle
        rcases WFids_unique cfg hwf n' n c' c hl' hlook hid' with ⟨rfl, rfl⟩
        exact absurd (Nat.lt_of_le_of_lt hle hrank) (Nat.lt_irrefl _))
      [] s
    rw [hb] at hl
    cases r with
    | error e0 =>
      rw [show buildD cfg env runner (Nat.succ f) ⟨c, prm⟩ s = (.error e0, s1) from by
        simp only [buildD, hb], Prod.mk.injEq] at h
      rw [← h.2]
      exact hl
    | ok resolved =>
      rw [show buildD cfg env runner (Nat.succ f) ⟨c, prm⟩ s =
          finishBuild env runner ⟨c, prm⟩ resolved
            (phaseCached cfg (env.ctors c.cls_).sig [] [] s) s1 from by
        simp only [buildD, hb]] at h
      have hfb := (finishBuild_facts env runner hro ⟨c, prm⟩ resolved
        (phaseCached cfg (env.ctors c.cls_).sig [] [] s) s1).2.2.2.1 e s' h
      rw [congrFun hfb c.id]
      exact hl

/-! ### The claims -/

/-- Claim C1: the docstring of `inject` (and the spec) promise that an
awaitable returned by the target callable is driven best-effort — run via
`asyncio.run` when no loop is running, scheduled as a Task when one is —
and never returned raw.  The code of `inject` ends with
`return fun(*args, **kwargs | resolved | cached)` and implements no such
policy: with and without a running loop it hands back the raw un-executed
awaitable, not the awaited value `42` and not a task handle. -/
theorem c1_inject_returns_raw_awaitable :
    (inject [] envPlain fnAsync [] [] 5 initSt).1 = .ok (.awaitable 3) ∧
    (inject [] envPlainLoop fnAsync [] [] 5 initSt).1 = .ok (.awaitable 3) ∧
    envPlain.awaitBeh 3 = .ok (.int 42) ∧
    (Except.ok (Val.awaitable 3) ≠ (.ok (.int 42) : Except Exc Val)) :=
  ⟨rfl, rfl, rfl, by simp⟩

/-- Claim C2: with zero resolvable parameters, `inject` coincides exactly
with a direct call (same result, state untouched) and `ainject` of an
async callable awaits its result; but for a synchronous callable returning
a non-awaitable, `ainject` raises `TypeError` from `await` instead of
returning the value, contradicting the claim and `ainject`'s docstring. -/
theorem c2_zero_resolvable (cfg : Config) (env : Env) (fn : Fn) (args : List Val)
    (kwargs : List (String × Val)) (f : Nat) (s : St)
    (h0 : getConfigurable cfg (getParamsToResolve fn.sig args kwargs) = []) :
    inject cfg env fn args kwargs f s = (fn.beh args kwargs, s) ∧
    (∀ i, fn.beh args kwargs = .ok (.awaitable i) →
      ainject cfg env fn args kwargs f s = (env.awaitBeh i, s)) ∧
    (∀ v, fn.beh args kwargs = .ok v → (∀ i, v ≠ .awaitable i) →
      ainject cfg env fn args kwargs f s = (.error awaitTypeError, s)) := by
  have htodo : phaseTodo cfg fn.sig args kwargs s = [] := by
    simp [phaseTodo, phaseParams, h0]
  have hcach : phaseCached cfg fn.sig args kwargs s = [] := by
    simp [phaseCached, phaseParams, h0, getCached]
  have hres : ∀ runner, injectResolveD cfg env runner fn.sig args kwargs f s =
      (.ok kwargs, s) := by
    intro runner
    simp only [injectResolveD, htodo, hcach, buildListF]
    rw [pyUnion_nil_right, pyUnion_nil_right]
  refine ⟨?_, ?_, ?_⟩
  · simp only [inject, hres]
  · intro i hi
    simp only [ainject, hres, hi, pyAwait]
  · intro v hv hni
    simp only [ainject, hres, hv]
    cases v with
    | awaitable i => exact absurd rfl (hni i)
    | none_ => rfl
    | int n => rfl
    | bool b => rfl
    | str t => rfl
    | ref a => rfl
    | task t => rfl

/-- Witness for C2 at a concrete input: the sync callable `fnSync` has no
resolvable parameters, and `ainject` raises `TypeError` instead of
returning its value `7`. -/
theorem c2_zero_resolvable_witness :
    getConfigurable [] (getParamsToResolve fnSync.sig [] []) = [] ∧
    ainject [] envPlain fnSync [] [] 5 initSt = (.error awaitTypeError, initSt) ∧
    inject [] envPlain fnSync [] [] 5 initSt = (fnSync.beh [] [], initSt) := by
  refine ⟨rfl, ?_, ?_⟩
  · exact (c2_zero_resolvable [] envPlain fnSync [] [] 5 initSt rfl).2.2 (.int 7) rfl
      (fun i h => by cases h)
  · exact (c2_zero_resolvable [] envPlain fnSync [] [] 5 initSt rfl).1

/-- Claim C3 counterexample: the cache guard is `if conf.cache and not
conf.cached`, Python truthiness.  A recipe whose constructor builds a falsy
instance (`__bool__` is `False`) has its `cached` slot set by the first
build (to the instance at address 0) and then overwritten by a second build
(with the fresh instance at address 1) — the claim's "no later build
overwrites it" fails as stated. -/
theorem c3_cache_counterexample :
    ((build cfgEngine envFalsy 5 ⟨engineConf, engineParam⟩ initSt).2).slots 0 =
      .ref 0 ∧
    (build cfgEngine envFalsy 5 ⟨engineConf, engineParam⟩
        ((build cfgEngine envFalsy 5 ⟨engineConf, engineParam⟩ initSt).2)).2.slots 0 =
      .ref 1 ∧
    Val.ref 0 ≠ Val.ref 1 :=
  ⟨rfl, rfl, by decide⟩

/-- Claim C3 (amended): over both build variants — blocking and
suspend-capable — a slot owned only by cache-disabled recipes is never
populated, and a slot already holding a truthy (heap-valid) instance is
never overwritten or cleared.  ("First build wins" holds only for truthy
instances; a falsy cached instance is treated as absent by the guard and
may be overwritten, per the counterexample.) -/
theorem c3_cache_invariant (cfg : Config) (env : Env) (f : Nat) (p : DIParam)
    (s : St) (i : Nat) :
    ((∀ n c, lookupCfg cfg n = some c → c.id = i → c.cache = false) →
      (p.conf.id = i → p.conf.cache = false) →
      ((build cfg env f p s).2.slots i = s.slots i ∧
       (abuild cfg env f p s).2.slots i = s.slots i)) ∧
    (truthy s.heap (s.slots i) = true → refBound s.heap (s.slots i) = true →
      ((build cfg env f p s).2.slots i = s.slots i ∧
       (abuild cfg env f p s).2.slots i = s.slots i)) := by
  refine ⟨fun hcfg hp => ⟨?_, ?_⟩, fun h1 h2 => ⟨?_, ?_⟩⟩
  · exact buildD_slots_cacheFalse cfg env _ (runCallsS_ok env) i hcfg f p s hp
  · exact buildD_slots_cacheFalse cfg env _ (runCallsA_ok env) i hcfg f p s hp
  · exact buildD_slots_truthy cfg env _ (runCallsS_ok env) i f p s h1 h2
  · exact buildD_slots_truthy cfg env _ (runCallsA_ok env) i f p s h1 h2

/-- Witness for the amended C3: the `Wheel` recipe (`cache=False`) never
populates its slot, and a slot already caching a truthy instance survives a
build. -/
theorem c3_cache_invariant_witness :
    (build cfgWheel envPlain 5 ⟨wheelConf, wheelParam⟩ initSt).2.slots 7 =
      initSt.slots 7 ∧
    (build cfgEngine envPlain 5 ⟨engineConf, engineParam⟩ stTruthy).2.slots 0 =
      stTruthy.slots 0 := by
  constructor
  · refine ((c3_cache_invariant cfgWheel envPlain 5 ⟨wheelConf, wheelParam⟩
      initSt 7).1 ?_ (fun _ => rfl)).1
    intro n c h _
    simp only [cfgWheel, lookupCfg] at h
    by_cases hn : "Wheel" = n
    · rw [if_pos hn] at h
      cases h
      rfl
    · rw [if_neg hn] at h
      cases h
  · exact ((c3_cache_invariant cfgEngine envPlain 5 ⟨engineConf, engineParam⟩
      stTruthy 0).2 rfl rfl).1

/-- Claim C7 counterexample: a parameter with no declared type marker is
not unconditionally skipped.  `param.annotation.__name__` for an absent
annotation is the string `_empty`, so a registry containing the key
`"_empty"` hands that recipe to a marker-less parameter. -/
theorem c7_matching_counterexample :
    getConfigurable [("_empty", engineConf)] [⟨"x", none⟩] =
      [⟨engineConf, ⟨"x", none⟩⟩] ∧
    (⟨"x", none⟩ : Param).ann = none :=
  ⟨rfl, rfl⟩

/-- Claim C7 (amended): the matching step is total (never raises) and
returns bindings exactly for the parameters whose effective marker name —
the declared marker's name, with `_empty` standing in for an absent
marker — has a recipe in the registry; all other parameters are silently
skipped. -/
theorem c7_matching_characterization (cfg : Config) (ps : List Param) :
    (∀ b ∈ getConfigurable cfg ps, b.param ∈ ps ∧
      lookupCfg cfg (annName b.param) = some b.conf) ∧
    (∀ p ∈ ps, lookupCfg cfg (annName p) = none →
      ∀ b ∈ getConfigurable cfg ps, b.param ≠ p) ∧
    (∀ p ∈ ps, ∀ c, lookupCfg cfg (annName p) = some c →
      (⟨c, p⟩ : DIParam) ∈ getConfigurable cfg ps) := by
  refine ⟨fun b hb => mem_getConfigurable cfg ps b hb, ?_, ?_⟩
  · intro p _ hnone b hb he
    have := (mem_getConfigurable cfg ps b hb).2
    rw [he, hnone] at this
    cases this
  · intro p hp c hc
    exact List.mem_filterMap.mpr ⟨p, hp, by rw [hc]; rfl⟩

/-- Witness for the amended C7: a parameter annotated `Engine` receives the
`Engine` recipe, and a parameter with an unregistered marker receives no
binding. -/
theorem c7_matching_characterization_witness :
    (⟨engineConf, ⟨"x", some "Engine"⟩⟩ : DIParam) ∈
      getConfigurable cfgEngine [⟨"x", some "Engine"⟩] ∧
    (∀ b ∈ getConfigurable cfgEngine [⟨"y", some "Unknown"⟩],
      b.param ≠ ⟨"y", some "Unknown"⟩) := by
  constructor
  · exact (c7_matching_characterization cfgEngine [⟨"x", some "Engine"⟩]).2.2
      ⟨"x", some "Engine"⟩ (by simp) engineConf rfl
  · exact (c7_matching_characterization cfgEngine [⟨"y", some "Unknown"⟩]).2.1
      ⟨"y", some "Unknown"⟩ (by simp) rfl

/-- Claim C8: the store-level `_get_params_to_resolve` never mutates the
caller's argument containers — every pre-existing cell of the store is
unchanged (the loop pops only from the fresh deep copies) — and it returns
the same parameter list as the value-level function on the containers'
contents. -/
theorem c8_discovery_no_mutation (sig : List Param) (aRef kRef : Option Nat)
    (st : ArgStore) :
    (∀ j, j < st.argCells.length →
      ((getParamsToResolveH sig aRef kRef st).2).argCells.getD j [] =
        st.argCells.getD j []) ∧
    (∀ j, j < st.kwCells.length →
      ((getParamsToResolveH sig aRef kRef st).2).kwCells.getD j [] =
        st.kwCells.getD j []) ∧
    (getParamsToResolveH sig aRef kRef st).1 =
      getParamsToResolve sig
        (match aRef with | some r => st.argCells.getD r [] | none => [])
        (match kRef with | some r => st.kwCells.getD r [] | none => []) := by
  refine ⟨fun j hj => ?_, fun j hj => ?_, ?_⟩
  · rw [show getParamsToResolveH sig aRef kRef st =
        gprHLoop sig st.argCells.length st.kwCells.length
          ⟨st.argCells ++ [match aRef with | some r => st.argCells.getD r [] | none => []],
           st.kwCells ++ [match kRef with | some r => st.kwCells.getD r [] | none => []]⟩
          sig from rfl]
    rw [(gprHLoop_frame sig st.argCells.length st.kwCells.length _ sig).1 j
      (Nat.ne_of_lt hj)]
    exact getDL_append_left _ _ j [] hj
  · rw [show getParamsToResolveH sig aRef kRef st =
        gprHLoop sig st.argCells.length st.kwCells.length
          ⟨st.argCells ++ [match aRef with | some r => st.argCells.getD r [] | none => []],
           st.kwCells ++ [match kRef with | some r => st.kwCells.getD r [] | none => []]⟩
          sig from rfl]
    rw [(gprHLoop_frame sig st.argCells.length st.kwCells.length _ sig).2 j
      (Nat.ne_of_lt hj)]
    exact getDL_append_left _ _ j [] hj
  · rw [show getParamsToResolveH sig aRef kRef st =
        gprHLoop sig st.argCells.length st.kwCells.length
          ⟨st.argCells ++ [match aRef with | some r => st.argCells.getD r [] | none => []],
           st.kwCells ++ [match kRef with | some r => st.kwCells.getD r [] | none => []]⟩
          sig from rfl]
    rw [gprHLoop_agree sig st.argCells.length st.kwCells.length _ sig
      (by simp) (by simp)]
    rw [show (⟨st.argCells ++ [match aRef with | some r => st.argCells.getD r [] | none => []],
        st.kwCells ++ [match kRef with | some r => st.kwCells.getD r [] | none => []]⟩ :
        ArgStore).argCells.getD st.argCells.length [] =
        (match aRef with | some r => st.argCells.getD r [] | none => []) from
      getDL_append_len _ _ _]
    rw [show (⟨st.argCells ++ [match aRef with | some r => st.argCells.getD r [] | none => []],
        st.kwCells ++ [match kRef with | some r => st.kwCells.getD r [] | none => []]⟩ :
        ArgStore).kwCells.getD st.kwCells.length [] =
        (match kRef with | some r => st.kwCells.getD r [] | none => []) from
      getDL_append_len _ _ _]
    rfl

/-- Witness for C8: a concrete store with one positional container and one
keyword container; discovery leaves both untouched. -/
theorem c8_discovery_no_mutation_witness :
    ((getParamsToResolveH [⟨"x", none⟩] (some 0) (some 0)
        ⟨[[.int 1]], [[("k", .int 2)]]⟩).2).argCells.getD 0 [] = [.int 1] ∧
    ((getParamsToResolveH [⟨"x", none⟩] (some 0) (some 0)
        ⟨[[.int 1]], [[("k", .int 2)]]⟩).2).kwCells.getD 0 [] = [("k", .int 2)] := by
  constructor
  · rw [(c8_discovery_no_mutation [⟨"x", none⟩] (some 0) (some 0)
      ⟨[[.int 1]], [[("k", .int 2)]]⟩).1 0 (by decide)]
    rfl
  · rw [(c8_discovery_no_mutation [⟨"x", none⟩] (some 0) (some 0)
      ⟨[[.int 1]], [[("k", .int 2)]]⟩).2.1 0 (by decide)]
    rfl

/-- Claim C5: every successful build — blocking and suspend-capable —
invokes the constructor with the recipe's configured positional arguments
and the keyword map `resolved | cached | conf.kwargs`, where `resolved` is
the actual output of the recursive dependency comprehension over the
not-yet-cached configurable parameters (keyed exactly by their names) and
`cached` is the actual `_get_cached` map of cached singletons; by Python
dict union, on a name collision the recipe's own keyword arguments override
the cached singletons, which override the freshly resolved dependencies. -/
theorem c5_merge_precedence (cfg : Config) (env : Env) (f : Nat) (p : DIParam)
    (s : St) :
    (∀ v s', build cfg env (f + 1) p s = (.ok v, s') →
      ∃ resolved s1,
        buildListF (build cfg env f)
            (phaseTodo cfg (env.ctors p.conf.cls_).sig [] [] s) [] s
          = (.ok resolved, s1) ∧
        resolved.map Prod.fst =
          (phaseTodo cfg (env.ctors p.conf.cls_).sig [] [] s).map
            (fun q => q.param.name) ∧
        s'.log = s1.log ++ [⟨p.conf.id, p.conf.cls_, p.conf.args,
          pyUnion (pyUnion resolved
            (phaseCached cfg (env.ctors p.conf.cls_).sig [] [] s)) p.conf.kwargs⟩] ∧
        ∀ nm, lookupStr (pyUnion (pyUnion resolved
            (phaseCached cfg (env.ctors p.conf.cls_).sig [] [] s)) p.conf.kwargs) nm =
          (lookupStr p.conf.kwargs nm).orElse (fun _ =>
            (lookupStr (phaseCached cfg (env.ctors p.conf.cls_).sig [] [] s) nm).orElse
              (fun _ => lookupStr resolved nm))) ∧
    (∀ v s', abuild cfg env (f + 1) p s = (.ok v, s') →
      ∃ resolved s1,
        buildListF (abuild cfg env f)
            (phaseTodo cfg (env.ctors p.conf.cls_).sig [] [] s) [] s
          = (.ok resolved, s1) ∧
        resolved.map Prod.fst =
          (phaseTodo cfg (env.ctors p.conf.cls_).sig [] [] s).map
            (fun q => q.param.name) ∧
        s'.log = s1.log ++ [⟨p.conf.id, p.conf.cls_, p.conf.args,
          pyUnion (pyUnion resolved
            (phaseCached cfg (env.ctors p.conf.cls_).sig [] [] s)) p.conf.kwargs⟩] ∧
        ∀ nm, lookupStr (pyUnion (pyUnion resolved
            (phaseCached cfg (env.ctors p.conf.cls_).sig [] [] s)) p.conf.kwargs) nm =
          (lookupStr p.conf.kwargs nm).orElse (fun _ =>
            (lookupStr (phaseCached cfg (env.ctors p.conf.cls_).sig [] [] s) nm).orElse
              (fun _ => lookupStr resolved nm))) := by
  constructor
  · intro v s' h
    rcases buildD_succ_ok_resolved cfg env _ (runCallsS_ok env) f p s v s' h with
      ⟨r, s1, hb, hk, hl⟩
    exact ⟨r, s1, hb, hk, hl, fun nm => by simp only [lookupStr_pyUnion]⟩
  · intro v s' h
    rcases buildD_succ_ok_resolved cfg env _ (runCallsA_ok env) f p s v s' h with
      ⟨r, s1, hb, hk, hl⟩
    exact ⟨r, s1, hb, hk, hl, fun nm => by simp only [lookupStr_pyUnion]⟩

/-- Witness for C5: the concrete successful Engine build at fuel 5. -/
theorem c5_merge_precedence_witness :
    ∃ resolved s1,
      buildListF (build cfgEngine envPlain 4)
          (phaseTodo cfgEngine (envPlain.ctors engineConf.cls_).sig [] [] initSt)
          [] initSt = (.ok resolved, s1) ∧
      resolved.map Prod.fst =
        (phaseTodo cfgEngine (envPlain.ctors engineConf.cls_).sig [] [] initSt).map
          (fun q => q.param.name) ∧
      ((build cfgEngine envPlain (4 + 1) ⟨engineConf, engineParam⟩ initSt).2).log =
        s1.log ++ [⟨engineConf.id, engineConf.cls_, engineConf.args,
          pyUnion (pyUnion resolved
            (phaseCached cfgEngine (envPlain.ctors engineConf.cls_).sig [] [] initSt))
            engineConf.kwargs⟩] ∧
      ∀ nm, lookupStr (pyUnion (pyUnion resolved
          (phaseCached cfgEngine (envPlain.ctors engineConf.cls_).sig [] [] initSt))
          engineConf.kwargs) nm =
        (lookupStr engineConf.kwargs nm).orElse (fun _ =>
          (lookupStr (phaseCached cfgEngine (envPlain.ctors engineConf.cls_).sig [] []
            initSt) nm).orElse (fun _ => lookupStr resolved nm)) :=
  (c5_merge_precedence cfgEngine envPlain 4 ⟨engineConf, engineParam⟩ initSt).1
    (.ref 0) ((build cfgEngine envPlain (4 + 1) ⟨engineConf, engineParam⟩ initSt).2) rfl

/-- Claim C6: a parameter satisfied by an explicitly supplied positional or
keyword argument is excluded from registry resolution — discovery returns
exactly the declared parameters beyond the positional prefix whose names
are not supplied keywords, so no binding (hence no lookup, build or cache
substitution) exists for an explicitly supplied parameter — and in the
final call map every explicitly supplied keyword keeps its supplied value,
while the positional arguments are passed through verbatim. -/
theorem c6_explicit_args_win (cfg : Config) (env : Env) (fn : Fn) (args : List Val)
    (kwargs : List (String × Val)) (f : Nat) (s : St)
    (hnd : (fn.sig.map Param.name).Nodup) :
    getParamsToResolve fn.sig args kwargs =
      (fn.sig.drop args.length).filter (fun p => !containsName kwargs p.name) ∧
    (∀ q ∈ phaseParams cfg fn.sig args kwargs,
      containsName kwargs q.param.name = false ∧ q.param ∈ fn.sig.drop args.length) ∧
    (∀ m s1, injectResolveD cfg env (runCallsS env) fn.sig args kwargs f s =
        (.ok m, s1) →
      (∀ n, containsName kwargs n = true → lookupStr m n = lookupStr kwargs n) ∧
      inject cfg env fn args kwargs f s = (fn.beh args m, s1)) := by
  have hchar := getParamsToResolve_char fn.sig args kwargs hnd
  have hmem : ∀ q ∈ phaseParams cfg fn.sig args kwargs,
      containsName kwargs q.param.name = false ∧ q.param ∈ fn.sig.drop args.length := by
    intro q hq
    have h1 := (mem_getConfigurable cfg _ q hq).1
    rw [hchar] at h1
    have h2 := List.mem_filter.mp h1
    exact ⟨by simpa using h2.2, h2.1⟩
  refine ⟨hchar, hmem, ?_⟩
  intro m s1 hres
  rcases hb : buildListF (buildD cfg env (runCallsS env) f)
      (phaseTodo cfg fn.sig args kwargs s) [] s with ⟨r, sb⟩
  cases r with
  | error e =>
    rw [show injectResolveD cfg env (runCallsS env) fn.sig args kwargs f s =
        (.error e, sb) from by simp only [injectResolveD, hb], Prod.mk.injEq] at hres
    exact absurd hres.1 (by simp)
  | ok resolved =>
    rw [show injectResolveD cfg env (runCallsS env) fn.sig args kwargs f s =
        (.ok (pyUnion (pyUnion kwargs resolved)
          (phaseCached cfg fn.sig args kwargs s)), sb) from by
      simp only [injectResolveD, hb], Prod.mk.injEq] at hres
    have hm : m = pyUnion (pyUnion kwargs resolved)
        (phaseCached cfg fn.sig args kwargs s) := by
      have := hres.1
      simp only [Except.ok.injEq] at this
      exact this.symm
    have hs1 : s1 = sb := hres.2.symm
    constructor
    · intro n hn
      have hkeys := buildListF_keys (buildD cfg env (runCallsS env) f) _ [] s
        resolved sb hb
      have hrn : lookupStr resolved n = none := by
        apply lookupStr_none_of_not_key
        rw [hkeys]
        simp only [List.map_nil, List.nil_append]
        intro hmemn
        rcases List.mem_map.mp hmemn with ⟨q, hq, hqe⟩
        have hq2 : q ∈ phaseParams cfg fn.sig args kwargs :=
          List.mem_of_mem_filter hq
        have hqc := (hmem q hq2).1
        rw [hqe] at hqc
        rw [hqc] at hn
        cases hn
      have hcn : lookupStr (phaseCached cfg fn.sig args kwargs s) n = none := by
        rcases hcl : lookupStr (phaseCached cfg fn.sig args kwargs s) n with _ | v
        · rfl
        · rcases getCached_name s.slots s.heap _ n v
            (lookupStr_some_mem _ n v hcl) with ⟨q, hq, hqe⟩
          have hqc := (hmem q hq).1
          rw [hqe] at hqc
          rw [hqc] at hn
          cases hn
      rw [hm]
      simp only [lookupStr_pyUnion, hrn, hcn]
      rfl
    · rw [hm, hs1]
      simp only [inject, injectResolveD, hb]

/-- Witness for C6: with `a` supplied as a keyword, only `b` needs
resolution. -/
theorem c6_explicit_args_win_witness :
    getParamsToResolve fnTwoEngines.sig [] [("a", Val.int 5)] =
      [⟨"b", some "Engine"⟩] := by
  rw [(c6_explicit_args_win cfgEngine envPlain fnTwoEngines [] [("a", .int 5)] 5
    initSt (by decide)).1]
  rfl

/-- Claim C9: exceptions propagate unmodified — same type and message — to
the top-level caller, with no retry and no cleanup.  If the second
dependency's build raises after the first was built, `inject` (and
`ainject`) surface exactly that exception together with exactly the state
the failing build left — the already-built sibling's effects persist.  A
constructor that raises surfaces its own exception from the build after a
single logged invocation, leaving slots and heap untouched. -/
theorem c9_exception_propagation (cfg : Config) (env : Env) (A B pa pb : String)
    (ca cb : DIConf) (fb : List Val → List (String × Val) → Except Exc Val)
    (e : Exc) (F : Nat) (s0 : St) :
    (∀ va s1 s2, lookupCfg cfg A = some ca → lookupCfg cfg B = some cb →
      truthy s0.heap (s0.slots ca.id) = false →
      truthy s0.heap (s0.slots cb.id) = false →
      build cfg env F ⟨ca, ⟨pa, some A⟩⟩ s0 = (.ok va, s1) →
      build cfg env F ⟨cb, ⟨pb, some B⟩⟩ s1 = (.error e, s2) →
      inject cfg env ⟨[⟨pa, some A⟩, ⟨pb, some B⟩], fb⟩ [] [] F s0 = (.error e, s2)) ∧
    (∀ va s1 s2, lookupCfg cfg A = some ca → lookupCfg cfg B = some cb →
      truthy s0.heap (s0.slots ca.id) = false →
      truthy s0.heap (s0.slots cb.id) = false →
      abuild cfg env F ⟨ca, ⟨pa, some A⟩⟩ s0 = (.ok va, s1) →
      abuild cfg env F ⟨cb, ⟨pb, some B⟩⟩ s1 = (.error e, s2) →
      ainject cfg env ⟨[⟨pa, some A⟩, ⟨pb, some B⟩], fb⟩ [] [] F s0 = (.error e, s2)) ∧
    (∀ g (q : DIParam) st3,
      (∀ as ks, (env.ctors q.conf.cls_).beh as ks = .error e) →
      phaseTodo cfg (env.ctors q.conf.cls_).sig [] [] st3 = [] →
      (build cfg env (g + 1) q st3).1 = .error e ∧
      (build cfg env (g + 1) q st3).2.slots = st3.slots ∧
      (build cfg env (g + 1) q st3).2.heap = st3.heap ∧
      (build cfg env (g + 1) q st3).2.log = st3.log ++
        [⟨q.conf.id, q.conf.cls_, q.conf.args,
          pyUnion (pyUnion []
            (phaseCached cfg (env.ctors q.conf.cls_).sig [] [] st3)) q.conf.kwargs⟩]) := by
  have htr : getParamsToResolve [⟨pa, some A⟩, ⟨pb, some B⟩] []
      ([] : List (String × Val)) = [⟨pa, some A⟩, ⟨pb, some B⟩] := rfl
  refine ⟨?_, ?_, ?_⟩
  · intro va s1 s2 hla hlb hsa hsb hba hbb
    have hpp : phaseParams cfg [⟨pa, some A⟩, ⟨pb, some B⟩] [] [] =
        [⟨ca, ⟨pa, some A⟩⟩, ⟨cb, ⟨pb, some B⟩⟩] := by
      simp [phaseParams, getConfigurable, htr, annName, hla, hlb]
    have hpc : phaseCached cfg [⟨pa, some A⟩, ⟨pb, some B⟩] [] [] s0 = [] := by
      simp [phaseCached, hpp, getCached, hsa, hsb]
    have hpt : phaseTodo cfg [⟨pa, some A⟩, ⟨pb, some B⟩] [] [] s0 =
        [⟨ca, ⟨pa, some A⟩⟩, ⟨cb, ⟨pb, some B⟩⟩] := by
      simp [phaseTodo, hpp, hpc, containsName]
    have hba' : buildD cfg env (runCallsS env) F ⟨ca, ⟨pa, some A⟩⟩ s0 =
        (.ok va, s1) := hba
    have hbb' : buildD cfg env (runCallsS env) F ⟨cb, ⟨pb, some B⟩⟩ s1 =
        (.error e, s2) := hbb
    have hbl : buildListF (buildD cfg env (runCallsS env) F)
        [⟨ca, ⟨pa, some A⟩⟩, ⟨cb, ⟨pb, some B⟩⟩] [] s0 = (.error e, s2) := by
      simp only [buildListF, hba', hbb']
    simp only [inject, injectResolveD, hpt, hbl]
  · intro va s1 s2 hla hlb hsa hsb hba hbb
    have hpp : phaseParams cfg [⟨pa, some A⟩, ⟨pb, some B⟩] [] [] =
        [⟨ca, ⟨pa, some A⟩⟩, ⟨cb, ⟨pb, some B⟩⟩] := by
      simp [phaseParams, getConfigurable, htr, annName, hla, hlb]
    have hpc : phaseCached cfg [⟨pa, some A⟩, ⟨pb, some B⟩] [] [] s0 = [] := by
      simp [phaseCached, hpp, getCached, hsa, hsb]
    have hpt : phaseTodo cfg [⟨pa, some A⟩, ⟨pb, some B⟩] [] [] s0 =
        [⟨ca, ⟨pa, some A⟩⟩, ⟨cb, ⟨pb, some B⟩⟩] := by
      simp [phaseTodo, hpp, hpc, containsName]
    have hba' : buildD cfg env (runCallsA env) F ⟨ca, ⟨pa, some A⟩⟩ s0 =
        (.ok va, s1) := hba
    have hbb' : buildD cfg env (runCallsA env) F ⟨cb, ⟨pb, some B⟩⟩ s1 =
        (.error e, s2) := hbb
    have hbl : buildListF (buildD cfg env (runCallsA env) F)
        [⟨ca, ⟨pa, some A⟩⟩, ⟨cb, ⟨pb, some B⟩⟩] [] s0 = (.error e, s2) := by
      simp only [buildListF, hba', hbb']
    simp only [ainject, injectResolveD, hpt, hbl]
  · intro g q st3 hbeh htodo
    have hstep : build cfg env (g + 1) q st3 =
        finishBuild env (runCallsS env) q []
          (phaseCached cfg (env.ctors q.conf.cls_).sig [] [] st3) st3 := by
      simp only [build, buildD, htodo, buildListF]
    have hfin : finishBuild env (runCallsS env) q []
        (phaseCached cfg (env.ctors q.conf.cls_).sig [] [] st3) st3 =
        (.error e, { st3 with log := st3.log ++
          [⟨q.conf.id, q.conf.cls_, q.conf.args,
            pyUnion (pyUnion []
              (phaseCached cfg (env.ctors q.conf.cls_).sig [] [] st3))
              q.conf.kwargs⟩] }) := by
      simp only [finishBuild, hbeh]
    rw [hstep.trans hfin]
    exact ⟨rfl, rfl, rfl, rfl⟩

/-- Witness for C9: in `cfg9`, `A` builds and then `B`'s constructor raises
`ValueError: boom`; `inject` surfaces exactly that exception and exactly
the state the failing build produced. -/
theorem c9_exception_propagation_witness :
    inject cfg9 env9 fn9 [] [] 5 initSt =
      (.error ⟨"ValueError", "boom"⟩,
        (build cfg9 env9 5 ⟨confB9, ⟨"b", some "B"⟩⟩
          ((build cfg9 env9 5 ⟨confA9, ⟨"a", some "A"⟩⟩ initSt).2)).2) :=
  (c9_exception_propagation cfg9 env9 "A" "B" "a" "b" confA9 confB9
    fn9.beh ⟨"ValueError", "boom"⟩ 5 initSt).1 (.ref 0)
    ((build cfg9 env9 5 ⟨confA9, ⟨"a", some "A"⟩⟩ initSt).2)
    ((build cfg9 env9 5 ⟨confB9, ⟨"b", some "B"⟩⟩
      ((build cfg9 env9 5 ⟨confA9, ⟨"a", some "A"⟩⟩ initSt).2)).2)
    rfl rfl rfl rfl rfl rfl

/-- Claim C10: in both build variants the `cached` slot of the conf being
built is written only after the constructor, the attribute assignments and
all lifecycle calls have completed; hence any build that raises leaves that
conf's slot exactly as it was (while recursively built dependencies may
already have populated their own slots). -/
theorem c10_cache_set_last (cfg : Config) (env : Env) (rank : String → Nat)
    (hra : ∀ n c, lookupCfg cfg n = some c →
      ∀ pm ∈ getParamsToResolve (env.ctors c.cls_).sig [] [],
        ∀ c', lookupCfg cfg (annName pm) = some c' → rank (annName pm) < rank n)
    (hwf : WFids cfg) (f : Nat) (n : String) (c : DIConf) (prm : Param) (s : St)
    (e : Exc) (s' s2 : St) (hlook : lookupCfg cfg n = some c) :
    (build cfg env f ⟨c, prm⟩ s = (.error e, s') → s'.slots c.id = s.slots c.id) ∧
    (abuild cfg env f ⟨c, prm⟩ s = (.error e, s2) → s2.slots c.id = s.slots c.id) := by
  constructor
  · exact fun h => buildD_error_slot cfg env _ (runCallsS_ok env) rank hra hwf
      f n c prm s e s' hlook h
  · exact fun h => buildD_error_slot cfg env _ (runCallsA_ok env) rank hra hwf
      f n c prm s e s2 hlook h

/-- Witness for C10: `A` (cache on) depends on `B` (cache on); `A`'s
lifecycle call raises, the exception propagates with `A`'s slot still
unset even though `B`'s slot was already populated. -/
theorem c10_cache_set_last_witness :
    ((build cfg10 env10 5 ⟨confA10, ⟨"a", some "A"⟩⟩ initSt).2).slots confA10.id =
      initSt.slots confA10.id ∧
    ((build cfg10 env10 5 ⟨confA10, ⟨"a", some "A"⟩⟩ initSt).2).slots confB10.id =
      .ref 0 ∧
    (build cfg10 env10 5 ⟨confA10, ⟨"a", some "A"⟩⟩ initSt).1 =
      .error ⟨"RuntimeError", "start failed"⟩ := by
  have hra : ∀ n c, lookupCfg cfg10 n = some c →
      ∀ pm ∈ getParamsToResolve (env10.ctors c.cls_).sig [] [],
        ∀ c', lookupCfg cfg10 (annName pm) = some c' →
          rankAB (annName pm) < rankAB n := by
    intro n c h pm hpm c' hc'
    simp only [cfg10, lookupCfg] at h
    by_cases h1 : "A" = n
    · rw [if_pos h1] at h
      cases h
      have hsig : getParamsToResolve (env10.ctors confA10.cls_).sig [] []
          = [⟨"self", none⟩, ⟨"b", some "B"⟩] := rfl
      rw [hsig] at hpm
      have hpm2 : pm = ⟨"self", none⟩ ∨ pm = ⟨"b", some "B"⟩ := by simpa using hpm
      rcases hpm2 with rfl | rfl
      · have : lookupCfg cfg10 (annName ⟨"self", none⟩) = none := rfl
        rw [this] at hc'
        cases hc'
      · rw [← h1]
        decide
    · rw [if_neg h1] at h
      by_cases h2 : "B" = n
      · rw [if_pos h2] at h
        cases h
        have hsig : getParamsToResolve (env10.ctors confB10.cls_).sig [] []
            = [⟨"self", none⟩] := rfl
        rw [hsig] at hpm
        have hpm2 : pm = ⟨"self", none⟩ := by simpa using hpm
        subst hpm2
        have : lookupCfg cfg10 (annName ⟨"self", none⟩) = none := rfl
        rw [this] at hc'
        cases hc'
      · rw [if_neg h2] at h
        cases h
  refine ⟨?_, rfl, rfl⟩
  exact (c10_cache_set_last cfg10 env10 rankAB hra
    (by unfold WFids; exact ⟨by decide, by decide⟩) 5 "A" confA10
    ⟨"a", some "A"⟩ initSt ⟨"RuntimeError", "start failed"⟩
    ((build cfg10 env10 5 ⟨confA10, ⟨"a", some "A"⟩⟩ initSt).2) initSt rfl).1 rfl

/-- Claim C4 counterexample: for a cache-enabled recipe whose constructor
builds a falsy instance, two sequential `inject` resolutions hand out two
distinct instances and invoke the constructor twice — the cache check
`p.conf.cache and p.conf.cached` does not recognize the falsy cached
instance. -/
theorem c4_singleton_counterexample :
    (inject cfgEngine envFalsy (probeFn "Engine" "e") [] [] 5 initSt).1 =
      .ok (.ref 0) ∧
    (inject cfgEngine envFalsy (probeFn "Engine" "e") [] [] 5
        ((inject cfgEngine envFalsy (probeFn "Engine" "e") [] [] 5 initSt).2)).1 =
      .ok (.ref 1) ∧
    Val.ref 0 ≠ Val.ref 1 ∧
    ((inject cfgEngine envFalsy (probeFn "Engine" "e") [] [] 5
        ((inject cfgEngine envFalsy (probeFn "Engine" "e") [] [] 5
          initSt).2)).2).log.length = 2 :=
  ⟨rfl, rfl, by decide, rfl⟩

/-- Claim C4 (amended): for a cache-enabled recipe in a well-formed acyclic
registry, if the first `inject` resolution succeeds and the instance it
hands out is truthy, then a second sequential `inject` hands out the
identical instance, leaves the state untouched, and across the two
resolutions the recipe's constructor is invoked exactly once.  (For a falsy
built instance the constructor runs again, per the counterexample.) -/
theorem c4_singleton_cache (cfg : Config) (env : Env) (rank : String → Nat)
    (T pn : String) (c : DIConf) (F F2 : Nat) (s0 s1 : St) (v1 : Val)
    (hwf : WFids cfg)
    (hra : ∀ n cc, lookupCfg cfg n = some cc →
      ∀ pm ∈ getParamsToResolve (env.ctors cc.cls_).sig [] [],
        ∀ c', lookupCfg cfg (annName pm) = some c' → rank (annName pm) < rank n)
    (hlook : lookupCfg cfg T = some c)
    (hcache : c.cache = true)
    (hslot : s0.slots c.id = .none_)
    (hfirst : inject cfg env (probeFn T pn) [] [] F s0 = (.ok v1, s1))
    (htru : truthy s1.heap v1 = true) :
    inject cfg env (probeFn T pn) [] [] F2 s1 = (.ok v1, s1) ∧
    s1.log.countP (fun en => en.confId == c.id) =
      s0.log.countP (fun en => en.confId == c.id) + 1 := by
  have htr1 : getParamsToResolve [⟨pn, some T⟩] [] ([] : List (String × Val)) =
      [⟨pn, some T⟩] := rfl
  have hpp : phaseParams cfg [⟨pn, some T⟩] [] [] = [⟨c, ⟨pn, some T⟩⟩] := by
    simp [phaseParams, getConfigurable, htr1, annName, hlook]
  have hpc0 : phaseCached cfg [⟨pn, some T⟩] [] [] s0 = [] := by
    simp [phaseCached, hpp, getCached, hslot, truthy]
  have hpt0 : phaseTodo cfg [⟨pn, some T⟩] [] [] s0 = [⟨c, ⟨pn, some T⟩⟩] := by
    simp [phaseTodo, hpp, hpc0, containsName]
  rcases hbd : buildD cfg env (runCallsS env) F ⟨c, ⟨pn, some T⟩⟩ s0 with ⟨r, sb⟩
  cases r with
  | error e =>
    exfalso
    have hinj : inject cfg env (probeFn T pn) [] [] F s0 = (.error e, sb) := by
      have hbl : buildListF (buildD cfg env (runCallsS env) F)
          [⟨c, ⟨pn, some T⟩⟩] [] s0 = (.error e, sb) := by
        simp only [buildListF, hbd]
      simp only [inject, injectResolveD, probeFn, hpt0, hbl]
    rw [hfirst, Prod.mk.injEq] at hinj
    exact absurd hinj.1 (by simp)
  | ok u =>
    have hbl : buildListF (buildD cfg env (runCallsS env) F)
        [⟨c, ⟨pn, some T⟩⟩] [] s0 = (.ok [(pn, u)], sb) := by
      simp only [buildListF, hbd, List.nil_append]
    have hinj1 : inject cfg env (probeFn T pn) [] [] F s0 =
        ((probeFn T pn).beh [] (pyUnion (pyUnion [] [(pn, u)])
          (phaseCached cfg [⟨pn, some T⟩] [] [] s0)), sb) := by
      simp only [inject, injectResolveD, probeFn, hpt0, hbl]
    rw [hpc0, pyUnion_nil_left, pyUnion_nil_right] at hinj1
    have hbeh : (probeFn T pn).beh [] [(pn, u)] = .ok u := by
      simp [probeFn, lookupStr]
    rw [hbeh, hfirst, Prod.mk.injEq] at hinj1
    have hv : v1 = u := by
      have h2 := hinj1.1
      simp only [Except.ok.injEq] at h2
      exact h2
    have hs : s1 = sb := hinj1.2
    subst hv
    subst hs
    have hkey : s1.slots c.id = v1 :=
      buildD_key cfg env _ (runCallsS_ok env) rank hra hwf F T c ⟨pn, some T⟩
        s0 v1 s1 hlook hbd hcache (by rw [hslot]; rfl) (by rw [hslot]; rfl)
    have hpc1 : phaseCached cfg [⟨pn, some T⟩] [] [] s1 = [(pn, v1)] := by
      simp [phaseCached, hpp, getCached, hkey, htru, hcache]
    have hpt1 : phaseTodo cfg [⟨pn, some T⟩] [] [] s1 = [] := by
      simp [phaseTodo, hpp, hpc1, containsName]
    have hinj2 : inject cfg env (probeFn T pn) [] [] F2 s1 =
        ((probeFn T pn).beh [] (pyUnion (pyUnion [] []) [(pn, v1)]), s1) := by
      simp only [inject, injectResolveD, probeFn, hpt1, hpc1, buildListF]
    have hm2 : pyUnion (pyUnion ([] : List (String × Val)) []) [(pn, v1)] =
        [(pn, v1)] := by
      rw [pyUnion_nil_left, pyUnion_nil_left]
    rw [hm2] at hinj2
    have hbeh2 : (probeFn T pn).beh [] [(pn, v1)] = .ok v1 := by
      simp [probeFn, lookupStr]
    rw [hbeh2] at hinj2
    refine ⟨hinj2, ?_⟩
    rcases buildD_log_rank cfg env _ (runCallsS_ok env) rank hra hwf F T c
      ⟨pn, some T⟩ s0 hlook with ⟨t, hlog, _, hcount⟩
    have hc1 := hcount v1 s1 hbd
    simp only [hbd] at hlog
    rw [hlog, List.countP_append, hc1]

/-- Witness for the amended C4: the spec's concrete Engine scenario with a
truthy instance — the second `inject` returns the same instance with no new
constructor invocation. -/
theorem c4_singleton_cache_witness :
    inject cfgEngine envPlain (probeFn "Engine" "e") [] [] 5
        ((inject cfgEngine envPlain (probeFn "Engine" "e") [] [] 5 initSt).2) =
      (.ok (.ref 0),
        (inject cfgEngine envPlain (probeFn "Engine" "e") [] [] 5 initSt).2) ∧
    ((inject cfgEngine envPlain (probeFn "Engine" "e") [] [] 5 initSt).2).log.countP
        (fun en => en.confId == engineConf.id) =
      initSt.log.countP (fun en => en.confId == engineConf.id) + 1 := by
  have hra : ∀ n cc, lookupCfg cfgEngine n = some cc →
      ∀ pm ∈ getParamsToResolve (envPlain.ctors cc.cls_).sig [] [],
        ∀ c', lookupCfg cfgEngine (annName pm) = some c' →
          (fun _ => 0 : String → Nat) (annName pm) < (fun _ => 0 : String → Nat) n := by
    intro n cc h pm hpm c' hc'
    simp only [cfgEngine, lookupCfg] at h
    by_cases h1 : "Engine" = n
    · rw [if_pos h1] at h
      cases h
      have hsig : getParamsToResolve (envPlain.ctors engineConf.cls_).sig [] []
          = [⟨"self", none⟩] := rfl
      rw [hsig] at hpm
      have hpm2 : pm = ⟨"self", none⟩ := by simpa using hpm
      subst hpm2
      have hn : lookupCfg cfgEngine (annName ⟨"self", none⟩) = none := rfl
      rw [hn] at hc'
      cases hc'
    · rw [if_neg h1] at h
      cases h
  exact c4_singleton_cache cfgEngine envPlain (fun _ => 0) "Engine" "e" engineConf
    5 5 initSt ((inject cfgEngine envPlain (probeFn "Engine" "e") [] [] 5 initSt).2)
    (.ref 0) (by unfold WFids; exact ⟨by decide, by decide⟩) hra rfl rfl rfl rfl
    rfl

end Pydi
